import Mathlib

/-!
Verification development for the tiled-image-viewer repository.

The file shallowly embeds the parts of the C++ sources that the verified
properties talk about:

* `src/sources/tile_loader.cc` — the deduplicated tile request queue and the
  worker selection rule (`queue_tile`, `mark_all_unwanted`, `pick_best_tile`,
  and the removal step of `worker_thread`);
* `src/sources/main.cc` — the LRU tile cache manipulation
  (`move_tile_to_front_of_lru_cache` and the eviction/insertion code in the
  render loop) and the error path of `load_tile`;
* `src/sources/http_reader.cc` — the interval-list range-cached reader
  (`cb_read`, `cb_request_range`, `cb_release_file_range`);
* `src/sources/http_reader_blockcache.cc` — the fixed-block range-cached
  reader (`cb_read`, `cb_request_range`).

Machine integers of the source are modelled as `Nat`: every quantity involved
(file sizes, positions, block indices) is non-negative in all states the
program reaches, and the claims under study stay far below the 64-bit
overflow boundary.  Network fetches are modelled by an explicit oracle
function so that both successful and failing transfers can be analysed;
a fetch request takes the first and the last (inclusive) byte position,
exactly like the `fetch_range` helper of the source.  The unbounded `while`
loop of the interval-list `cb_read` is embedded with an explicit fuel
argument; all theorems about it supply provably sufficient fuel.
-/

set_option maxHeartbeats 1000000

namespace TiledViewer

/-- A byte of the remote resource, modelled as a natural number. -/
abbrev Byte := Nat

/-- The bytes of the remote resource at positions s, s+1, ..., s+n-1. -/
def resSlice (res : Nat → Byte) (s n : Nat) : List Byte :=
  (List.range' s n).map res

/-- A network fetch oracle: given the first and the last (inclusive) byte
position of a range request, it returns the transferred bytes, or `none`
when the transfer fails (`fetch_range` returning `false` in the source). -/
abbrev FetchOracle := Nat → Nat → Option (List Byte)

/-- The oracle of an ideal transport: every fetch succeeds and returns
exactly the requested bytes of the resource. -/
def honestFetch (res : Nat → Byte) : FetchOracle :=
  fun s e => some (resSlice res s (e + 1 - s))

/-- An oracle whose successful transfers always have exactly the requested
length (one byte per position of the inclusive range). -/
def ExactLen (fetch : FetchOracle) : Prop :=
  ∀ s e d, fetch s e = some d → d.length = e + 1 - s

/- ----------------------------------------------------------------------
src/sources/tile_loader.cc — tile request queue and worker selection
---------------------------------------------------------------------- -/

/-- struct TileRequest of tile_loader.h: tile coordinate, pyramid layer and
the visibility flag. -/
structure TileRequest where
  x : Int
  y : Int
  layer : Nat
  wanted : Bool
deriving DecidableEq, Repr

/-- Key equality used throughout tile_loader.cc: same x, y and layer. -/
def TileRequest.sameKey (r : TileRequest) (x y : Int) (layer : Nat) : Bool :=
  r.x = x && r.y = y && r.layer = layer

/-- Helper for `queue_tile`: walk the queue front to back and set the
`wanted` flag of the first entry with the given key, returning `none` when
no entry matches (the early-return loop of tile_loader.cc lines 57-62). -/
def markFirstWanted (x y : Int) (layer : Nat) : List TileRequest → Option (List TileRequest)
  | [] => none
  | r :: rs =>
      if r.sameKey x y layer then some ({ r with wanted := true } :: rs)
      else (markFirstWanted x y layer rs).map (r :: ·)

/-- TileLoader::queue_tile: if an entry with the key already exists, mark it
wanted; otherwise push a fresh wanted entry at the front of the deque. -/
def queue_tile (x y : Int) (layer : Nat) (q : List TileRequest) : List TileRequest :=
  match markFirstWanted x y layer q with
  | some q' => q'
  | none => ⟨x, y, layer, true⟩ :: q

/-- TileLoader::mark_all_unwanted: clear the wanted flag of every entry. -/
def mark_all_unwanted (q : List TileRequest) : List TileRequest :=
  q.map (fun r => { r with wanted := false })

/-- TileLoader::pick_best_tile: the first wanted entry front to back, or the
front entry when no entry is wanted, or nothing on an empty queue. -/
def pick_best_tile (q : List TileRequest) : Option TileRequest :=
  match q.find? (·.wanted) with
  | some r => some r
  | none => q.head?

/-- The queue-mutation step of TileLoader::worker_thread: remove the first
entry whose key equals the key of the picked request (the find_if/erase
pair of tile_loader.cc lines 115-119). -/
def remove_request (req : TileRequest) (q : List TileRequest) : List TileRequest :=
  q.eraseP (fun r => r.sameKey req.x req.y req.layer)

/-- One worker dequeue step: pick the best tile and remove it, also
returning the picked request (the inside of the worker loop). -/
def worker_take (q : List TileRequest) : Option (TileRequest × List TileRequest) :=
  match pick_best_tile q with
  | none => none
  | some req => some (req, remove_request req q)

/-- Repeatedly pick and remove requests, recording the processed keys in
order.  The fuel bounds the number of steps; the queue shrinks by one entry
per step, so fuel equal to the queue length drains it completely. -/
def drain_order : Nat → List TileRequest → List (Int × Int × Nat)
  | 0, _ => []
  | fuel + 1, q =>
      match worker_take q with
      | none => []
      | some (req, q') => (req.x, req.y, req.layer) :: drain_order fuel q'

/-- The operations that mutate the request queue, for stating invariants
over arbitrary operation sequences. -/
inductive QueueOp where
  | enq (x y : Int) (layer : Nat)
  | markAllUnwanted
  | take
deriving DecidableEq, Repr

/-- Apply one queue operation. -/
def applyQueueOp (q : List TileRequest) : QueueOp → List TileRequest
  | .enq x y layer => queue_tile x y layer q
  | .markAllUnwanted => mark_all_unwanted q
  | .take => match worker_take q with
      | none => q
      | some (_, q') => q'

/-- Apply a sequence of queue operations starting from the empty queue. -/
def runQueueOps (ops : List QueueOp) : List TileRequest :=
  ops.foldl applyQueueOp []

/-- The identity of a request: its tile coordinate and layer. -/
def keyOf (r : TileRequest) : Int × Int × Nat := (r.x, r.y, r.layer)

/-- No two entries of the queue share a key. -/
def NoDupKeys (q : List TileRequest) : Prop :=
  (q.map keyOf).Nodup

/- ----------------------------------------------------------------------
src/sources/main.cc — LRU tile cache and the load_tile error path
---------------------------------------------------------------------- -/

/-- enum class tile_state of main.cc. -/
inductive TileState where
  | loading
  | waiting_for_texture_upload
  | ready
deriving DecidableEq, Repr

/-- struct Tile of main.cc, reduced to the fields the cache logic reads:
the key (x, y, layer) and the state.  The texture and image payloads are
handles to the external rendering library and carry no information the
verified properties depend on. -/
structure Tile where
  x : Int
  y : Int
  layer : Nat
  state : TileState := .loading
deriving DecidableEq, Repr

/-- move_tile_to_front_of_lru_cache of main.cc: save the entry at idx,
shift the entries before it one slot towards the back, and put the saved
entry at slot 0.  The net effect on the list is moving index idx to the
front.  An index outside the list leaves it unchanged (the source never
calls it with one). -/
def move_tile_to_front_of_lru_cache (idx : Nat) (tiles : List Tile) : List Tile :=
  match tiles.get? idx with
  | some t => t :: tiles.eraseIdx idx
  | none => tiles

/-- The cache-insertion path of the render loop of main.cc (lines 375-397):
when the tile is absent, evict the back entry if the cache is at capacity,
push the new loading tile at the back, and move it to the front. -/
def insert_new_tile (cap : Nat) (t : Tile) (tiles : List Tile) : List Tile :=
  let tiles := if tiles.length = cap then tiles.dropLast else tiles
  let tiles := tiles ++ [t]
  move_tile_to_front_of_lru_cache (tiles.length - 1) tiles

/-- Insert a list of fresh tiles one after the other, first element first. -/
def insert_tiles (cap : Nat) (ks : List Tile) (tiles : List Tile) : List Tile :=
  ks.foldl (fun acc t => insert_new_tile cap t acc) tiles

/-- What a call to load_tile does to the process.  heif decode errors make
the source call exit(0), tearing the whole process down; on success the
matching cache entry is published for texture upload. -/
inductive LoadOutcome where
  | processExit (code : Nat)
  | completed
deriving DecidableEq, Repr

/-- Helper for load_tile: set the state of the first tile with the key to
waiting_for_texture_upload (the publish loop of main.cc lines 120-126). -/
def publish_tile (tx ty : Int) (layer : Nat) : List Tile → List Tile
  | [] => []
  | t :: ts =>
      if t.x = tx ∧ t.y = ty ∧ t.layer = layer then
        { t with state := .waiting_for_texture_upload } :: ts
      else t :: publish_tile tx ty layer ts

/-- load_tile of main.cc, with the decode collaborator abstracted into the
flag decode_ok: when the decode fails (err.code nonzero) the source prints
the message and calls exit(0); otherwise it publishes the decoded buffer
into the matching tile cache entry. -/
def load_tile (decode_ok : Bool) (tx ty : Int) (layer : Nat) (tiles : List Tile) :
    LoadOutcome × List Tile :=
  if decode_ok then
    (.completed, publish_tile tx ty layer tiles)
  else
    (.processExit 0, tiles)

/- ----------------------------------------------------------------------
src/sources/http_reader.cc — interval-list range-cached reader
---------------------------------------------------------------------- -/

/-- The heif_reader_grow_status values the callbacks return, together with
the error status of a range-request result. -/
inductive GrowStatus where
  | size_reached
  | size_beyond_eof
  | fetch_error
deriving DecidableEq, Repr

/-- struct CachedRange of http_reader.cc: the start offset and the bytes of
one previously fetched contiguous run. -/
structure CachedRange where
  start : Nat
  data : List Byte
deriving DecidableEq, Repr

/-- The fields of HttpReaderImpl the callbacks read and write, after a
successful init: the discovered file size, the stream position and the list
of cached ranges. -/
structure ReaderState where
  file_size : Nat
  current_position : Nat
  cache : List CachedRange
deriving DecidableEq, Repr

/-- The cache lookup of cb_read: the first cached range containing pos
(linear scan in insertion order, http_reader.cc lines 109-122). -/
def findRange (cache : List CachedRange) (pos : Nat) : Option CachedRange :=
  cache.find? (fun r => r.start ≤ pos && pos < r.start + r.data.length)

/-- The while loop of cb_read (http_reader.cc lines 105-139), with explicit
fuel.  Arguments: fuel, cache, pos, remaining, bytes copied so far.  The
result is `none` when the fuel runs out, otherwise a flag (false exactly
when a fetch failed mid-loop), the bytes copied into the caller buffer, the
cache after all insertions, and the final value of the local pos. -/
def cb_read_loop (fetch : FetchOracle) (file_size : Nat) :
    Nat → List CachedRange → Nat → Nat → List Byte →
    Option (Bool × List Byte × List CachedRange × Nat)
  | 0, _, _, _, _ => none
  | _ + 1, cache, pos, 0, acc => some (true, acc, cache, pos)
  | fuel + 1, cache, pos, remaining + 1, acc =>
      match findRange cache pos with
      | some r =>
          let offset := pos - r.start
          let available := r.data.length - offset
          let to_copy := min (remaining + 1) available
          cb_read_loop fetch file_size fuel cache (pos + to_copy)
            (remaining + 1 - to_copy) (acc ++ (r.data.drop offset).take to_copy)
      | none =>
          let fetch_start := pos
          let fetch_end := min (pos + 65535) (file_size - 1)
          match fetch fetch_start fetch_end with
          | none => some (false, acc, cache, pos)
          | some data =>
              cb_read_loop fetch file_size fuel (cache ++ [⟨fetch_start, data⟩])
                pos (remaining + 1) acc

/-- cb_read of http_reader.cc: reject reads past the end of the file, run
the copy loop, and commit the position only when every byte was copied.
On a mid-loop fetch failure the source returns size_beyond_eof before the
`current_position = pos` assignment, so the position stays untouched while
ranges fetched earlier in the loop stay cached. -/
def cb_read (fetch : FetchOracle) (st : ReaderState) (size : Nat) (fuel : Nat) :
    Option (GrowStatus × List Byte × ReaderState) :=
  if st.file_size < st.current_position + size then
    some (.size_beyond_eof, [], st)
  else
    match cb_read_loop fetch st.file_size fuel st.cache st.current_position size [] with
    | none => none
    | some (true, out, cache', pos') =>
        some (.size_reached, out, { st with cache := cache', current_position := pos' })
    | some (false, out, cache', _) =>
        some (.size_beyond_eof, out, { st with cache := cache' })

/-- cb_request_range of http_reader.cc: satisfied immediately when one
cached range covers the whole request, otherwise fetch exactly the request
and append it as a new span.  The third component logs the fetches issued,
as (first byte, last byte) pairs. -/
def cb_request_range (fetch : FetchOracle) (st : ReaderState) (start end_ : Nat) :
    GrowStatus × ReaderState × List (Nat × Nat) :=
  let last_byte := end_ - 1
  if st.cache.any (fun r => r.start ≤ start && last_byte < r.start + r.data.length) then
    (.size_reached, st, [])
  else
    match fetch start last_byte with
    | none => (.fetch_error, st, [(start, last_byte)])
    | some data =>
        (.size_reached, { st with cache := st.cache ++ [⟨start, data⟩] }, [(start, last_byte)])

/-- cb_release_file_range of http_reader.cc: drop every cached range fully
contained in the released span. -/
def cb_release_file_range (st : ReaderState) (start end_ : Nat) : ReaderState :=
  { st with cache :=
      st.cache.filter (fun r => !(start ≤ r.start && r.start + r.data.length - 1 ≤ end_)) }

/-- Every cached range holds precisely the bytes of the resource over its
span, and the span lies inside the resource. -/
def CacheWF (res : Nat → Byte) (N : Nat) (cache : List CachedRange) : Prop :=
  ∀ r ∈ cache, r.data = resSlice res r.start r.data.length ∧ r.start + r.data.length ≤ N

/-- Sequential reads: issue one cb_read per entry of sizes, each with fuel
two times the size plus one (enough for the honest oracle), concatenating
the outputs; `none` when any read does not return size_reached. -/
def readAll (fetch : FetchOracle) : List Nat → ReaderState → Option (List Byte × ReaderState)
  | [], st => some ([], st)
  | size :: sizes, st =>
      match cb_read fetch st size (2 * size + 1) with
      | some (.size_reached, out, st') =>
          (readAll fetch sizes st').map (fun p => (out ++ p.1, p.2))
      | _ => none

/- ----------------------------------------------------------------------
src/sources/http_reader_blockcache.cc — fixed-block range-cached reader
---------------------------------------------------------------------- -/

/-- The fields of HttpReaderBlockCacheImpl the callbacks use after a
successful init.  The cache vector has one slot per block; an empty list is
an unfilled slot (CachedBlock with empty data). -/
structure BlockReaderState where
  file_size : Nat
  current_position : Nat
  block_size : Nat
  cache : List (List Byte)
deriving DecidableEq, Repr

/-- Number of cache slots allocated by init:
ceil(file_size / block_size). -/
def numBlocks (N bs : Nat) : Nat := (N + bs - 1) / bs

/-- The first trimming loop of cb_request_range (http_reader_blockcache.cc
lines 202-209): advance start_block over already-filled blocks, stopping at
the first empty one or past last_block.  The fuel is the number of loop
iterations still allowed; the caller passes the width of the range, which
is always enough. -/
def trimLowAux (cache : List (List Byte)) : Nat → Nat → Nat → Nat
  | 0, sb, _ => sb
  | fuel + 1, sb, lb =>
      if sb ≤ lb ∧ cache.getD sb [] ≠ [] then trimLowAux cache fuel (sb + 1) lb
      else sb

/-- The start_block value after the first trimming loop. -/
def trimLow (cache : List (List Byte)) (sb lb : Nat) : Nat :=
  trimLowAux cache (lb + 1 - sb) sb lb

/-- The second trimming loop of cb_request_range (lines 211-218): pull
last_block down over already-filled blocks, stopping at the first empty one
or below start_block. -/
def trimHighAux (cache : List (List Byte)) : Nat → Nat → Nat → Nat
  | 0, _, lb => lb
  | fuel + 1, sb, lb =>
      if sb ≤ lb ∧ cache.getD lb [] ≠ [] then trimHighAux cache fuel sb (lb - 1)
      else lb

/-- The last_block value after the second trimming loop. -/
def trimHigh (cache : List (List Byte)) (sb lb : Nat) : Nat :=
  trimHighAux cache (lb + 1 - sb) sb lb

/-- The slicing loop of cb_request_range (lines 245-251): for k below
count, slot sb+k receives the bytes of the fetched data from offset k times
block_size, at most block_size of them. -/
def fillBlocks (data : List Byte) (bs sb : Nat) : Nat → List (List Byte) → List (List Byte)
  | 0, cache => cache
  | count + 1, cache =>
      (fillBlocks data bs sb count cache).set (sb + count) ((data.drop (count * bs)).take bs)

/-- cb_request_range of http_reader_blockcache.cc: map the request to
inclusive block indices, trim filled blocks off both ends, return satisfied
when nothing is left, otherwise fetch the block-aligned span (clamped to
the file size) in one request and slice it into the block slots.  The third
component logs the fetches issued, as (first byte, last byte) pairs. -/
def blk_request_range (fetch : FetchOracle) (st : BlockReaderState) (start end_ : Nat) :
    GrowStatus × BlockReaderState × List (Nat × Nat) :=
  let bs := st.block_size
  let last_byte := end_ - 1
  let start_block := trimLow st.cache (start / bs) (last_byte / bs)
  let last_block := trimHigh st.cache start_block (last_byte / bs)
  if last_block < start_block then
    (.size_reached, st, [])
  else
    let fstart := start_block * bs
    let fend := min (last_block * bs + bs) st.file_size
    match fetch fstart (fend - 1) with
    | none => (.fetch_error, st, [(fstart, fend - 1)])
    | some data =>
        (.size_reached,
         { st with cache := fillBlocks data bs start_block (last_block + 1 - start_block) st.cache },
         [(fstart, fend - 1)])

/-- Result of the fixed-block cb_read.  The assertFailed outcome models the
assert(false) of http_reader_blockcache.cc line 150 firing after a fetch
whose bytes the function then drops without caching. -/
inductive BlkReadOutcome where
  | reached
  | beyondEof
  | assertFailed
deriving DecidableEq, Repr

/-- The per-block copy loop of the fixed-block cb_read (lines 120-133):
walk the listed blocks, copy from the position inside the block up to the
block end or the remaining byte count, and advance. -/
def blkCopy (cache : List (List Byte)) (bs : Nat) :
    List Nat → Nat → Nat → List Byte × Nat
  | [], pos, _ => ([], pos)
  | b :: blocks, pos, remaining =>
      let block_start := b * bs
      let block_end := block_start + bs
      let to_copy := min remaining (block_end - pos)
      let chunk := ((cache.getD b []).drop (pos - block_start)).take to_copy
      let rest := blkCopy cache bs blocks (pos + to_copy) (remaining - to_copy)
      (chunk ++ rest.1, rest.2)

/-- cb_read of http_reader_blockcache.cc: reject reads beyond the file end;
when every overlapping block is filled, copy block by block and advance the
position; when some block is empty, fetch up to 64 KiB at the position and,
if the transfer succeeds, hit assert(false) with the fetched bytes
discarded — on transfer failure return size_beyond_eof with the position
untouched.  The fourth component logs the fetches issued. -/
def blk_read (fetch : FetchOracle) (st : BlockReaderState) (size : Nat) :
    BlkReadOutcome × List Byte × BlockReaderState × List (Nat × Nat) :=
  if st.file_size < st.current_position + size then
    (.beyondEof, [], st, [])
  else
    let bs := st.block_size
    let pos := st.current_position
    let first_block := pos / bs
    let last_block := (pos + size - 1) / bs
    let blocks := List.range' first_block (last_block + 1 - first_block)
    if blocks.all (fun b => st.cache.getD b [] ≠ []) then
      let r := blkCopy st.cache bs blocks pos size
      (.reached, r.1, { st with current_position := r.2 }, [])
    else
      let fetch_start := pos
      let fetch_end := min (pos + 65535) (st.file_size - 1)
      match fetch fetch_start fetch_end with
      | none => (.beyondEof, [], st, [(fetch_start, fetch_end)])
      | some _ => (.assertFailed, [], st, [(fetch_start, fetch_end)])

/-- A block slot is full when it holds one byte per position of its block:
block_size bytes, or the remainder for the final block of the file. -/
def blockFullSize (N bs b : Nat) : Nat := min bs (N - b * bs)

/-- Every slot of the block cache is either empty or full — the binary
occupancy invariant of the fixed-block policy. -/
def BlockInv (N bs : Nat) (cache : List (List Byte)) : Prop :=
  ∀ b, cache.getD b [] = [] ∨ (cache.getD b []).length = blockFullSize N bs b

/-- Every slot of the block cache is either empty or holds precisely the
resource bytes of its block. -/
def BlockCacheWF (res : Nat → Byte) (N bs : Nat) (cache : List (List Byte)) : Prop :=
  ∀ b, cache.getD b [] = [] ∨ cache.getD b [] = resSlice res (b * bs) (blockFullSize N bs b)

/- ----------------------------------------------------------------------
Helper lemmas about resource slices
---------------------------------------------------------------------- -/

theorem resSlice_zero (res : Nat → Byte) (s : Nat) : resSlice res s 0 = [] := rfl

theorem resSlice_succ (res : Nat → Byte) (s n : Nat) :
    resSlice res s (n + 1) = res s :: resSlice res (s + 1) n := by
  simp [resSlice, List.range'_succ]

@[simp] theorem resSlice_length (res : Nat → Byte) (s n : Nat) :
    (resSlice res s n).length = n := by
  simp [resSlice]

theorem resSlice_append (res : Nat → Byte) (s m n : Nat) :
    resSlice res s m ++ resSlice res (s + m) n = resSlice res s (m + n) := by
  simp [resSlice, ← List.map_append, List.range'_append_1, Nat.add_comm]

theorem resSlice_drop (res : Nat → Byte) (s n k : Nat) :
    (resSlice res s n).drop k = resSlice res (s + k) (n - k) := by
  rcases Nat.le_total k n with h | h
  · have hsplit : resSlice res s k ++ resSlice res (s + k) (n - k) = resSlice res s n := by
      rw [resSlice_append, Nat.add_sub_cancel' h]
    calc (resSlice res s n).drop k
        = ((resSlice res s k ++ resSlice res (s + k) (n - k)).drop k) := by rw [hsplit]
      _ = resSlice res (s + k) (n - k) := List.drop_left' (by simp)
  · rw [List.drop_of_length_le (by simpa using h), Nat.sub_eq_zero_of_le h, resSlice_zero]

theorem resSlice_take (res : Nat → Byte) (s n k : Nat) :
    (resSlice res s n).take k = resSlice res s (min k n) := by
  rcases Nat.le_total k n with h | h
  · have hsplit : resSlice res s k ++ resSlice res (s + k) (n - k) = resSlice res s n := by
      rw [resSlice_append, Nat.add_sub_cancel' h]
    rw [Nat.min_eq_left h]
    calc (resSlice res s n).take k
        = ((resSlice res s k ++ resSlice res (s + k) (n - k)).take k) := by rw [hsplit]
      _ = resSlice res s k := List.take_left' (by simp)
  · rw [List.take_of_length_le (by simpa using h), Nat.min_eq_right h]

theorem honestFetch_exactLen (res : Nat → Byte) : ExactLen (honestFetch res) := by
  intro s e d h
  simp [honestFetch] at h
  simp [← h]

/- ----------------------------------------------------------------------
C1 — decode failure aborts the process (src/sources/main.cc, load_tile)
---------------------------------------------------------------------- -/

/-- C1: the claim says a failed tile decode must mark only that tile failed
and never abort the process.  The source instead calls exit(0) whenever the
decode of a tile returns an error (main.cc lines 96-99), tearing down the
whole process and every in-flight decode.  Evaluating the embedded
load_tile at a failing decode of tile (0, 0) on layer 0 with one loading
tile cached shows the process-exit outcome and no per-tile failure state. -/
theorem C1_decode_failure_exits_process :
    load_tile false 0 0 0 [{ x := 0, y := 0, layer := 0 }] =
      (.processExit 0, [{ x := 0, y := 0, layer := 0 }]) := rfl

/- ----------------------------------------------------------------------
C8 — worker processing order scenario (src/sources/tile_loader.cc)
---------------------------------------------------------------------- -/

/-- C8: enqueue requests 1..5 in order, demote all, re-request 2 and 4 — so
exactly 2 and 4 are wanted — and repeatedly pick with pick_best_tile and
remove.  The processing order is 4, 2, 5, 3, 1: wanted requests in
most-recently-requested order first, then the unwanted ones in reverse
insertion order. -/
theorem C8_worker_processing_order :
    (queue_tile 4 0 0 (queue_tile 2 0 0 (mark_all_unwanted
        (queue_tile 5 0 0 (queue_tile 4 0 0 (queue_tile 3 0 0
          (queue_tile 2 0 0 (queue_tile 1 0 0 []))))))) =
      [⟨5, 0, 0, false⟩, ⟨4, 0, 0, true⟩, ⟨3, 0, 0, false⟩,
       ⟨2, 0, 0, true⟩, ⟨1, 0, 0, false⟩]) ∧
    drain_order 5
        [⟨5, 0, 0, false⟩, ⟨4, 0, 0, true⟩, ⟨3, 0, 0, false⟩,
         ⟨2, 0, 0, true⟩, ⟨1, 0, 0, false⟩] =
      [(4, 0, 0), (2, 0, 0), (5, 0, 0), (3, 0, 0), (1, 0, 0)] := by
  constructor <;> rfl

/- ----------------------------------------------------------------------
C7 — request queue deduplication (src/sources/tile_loader.cc)
---------------------------------------------------------------------- -/

theorem markFirstWanted_eq_none {x y : Int} {layer : Nat} {q : List TileRequest} :
    markFirstWanted x y layer q = none ↔ ∀ r ∈ q, r.sameKey x y layer = false := by
  induction q with
  | nil => simp [markFirstWanted]
  | cons r rs ih =>
      by_cases h : r.sameKey x y layer
      · simp [markFirstWanted, h]
      · simp only [markFirstWanted, if_neg h, Option.map_eq_none', ih,
          List.mem_cons, Bool.not_eq_true] at *
        constructor
        · intro hall s hs
          rcases hs with rfl | hs
          · simpa using h
          · exact hall s hs
        · intro hall s hs
          exact hall s (Or.inr hs)

theorem markFirstWanted_eq_some {x y : Int} {layer : Nat} :
    ∀ {q q' : List TileRequest}, markFirstWanted x y layer q = some q' →
      ∃ pre r post, q = pre ++ r :: post ∧
        q' = pre ++ { r with wanted := true } :: post ∧
        r.sameKey x y layer = true ∧
        ∀ p ∈ pre, p.sameKey x y layer = false := by
  intro q
  induction q with
  | nil => intro q' h; simp [markFirstWanted] at h
  | cons r rs ih =>
      intro q' h
      by_cases hk : r.sameKey x y layer
      · refine ⟨[], r, rs, by simp, ?_, hk, by simp⟩
        simp [markFirstWanted, hk] at h
        simp [← h]
      · simp only [markFirstWanted, if_neg hk, Option.map_eq_some'] at h
        obtain ⟨rs', hrs', rfl⟩ := h
        obtain ⟨pre, r₀, post, hq, hq', hkey, hpre⟩ := ih hrs'
        refine ⟨r :: pre, r₀, post, by simp [hq], by simp [hq'], hkey, ?_⟩
        intro p hp
        rcases List.mem_cons.mp hp with rfl | hp
        · simpa using hk
        · exact hpre p hp

theorem keyOf_set_wanted (r : TileRequest) :
    keyOf { r with wanted := true } = keyOf r := rfl

theorem sameKey_iff_keyOf {r : TileRequest} {x y : Int} {layer : Nat} :
    r.sameKey x y layer = true ↔ keyOf r = (x, y, layer) := by
  simp [TileRequest.sameKey, keyOf, Prod.ext_iff, and_assoc]

theorem noDupKeys_queue_tile {x y : Int} {layer : Nat} {q : List TileRequest}
    (h : NoDupKeys q) : NoDupKeys (queue_tile x y layer q) := by
  unfold queue_tile
  cases hm : markFirstWanted x y layer q with
  | none =>
      have habs := markFirstWanted_eq_none.mp hm
      simp only [NoDupKeys, List.map_cons, List.nodup_cons]
      refine ⟨?_, h⟩
      intro hmem
      obtain ⟨r, hr, hkey⟩ := List.mem_map.mp hmem
      have : r.sameKey x y layer = true := sameKey_iff_keyOf.mpr (by simpa [keyOf] using hkey)
      simp [habs r hr] at this
  | some q' =>
      obtain ⟨pre, r, post, hq, hq', _, _⟩ := markFirstWanted_eq_some hm
      have : q'.map keyOf = q.map keyOf := by
        simp [hq, hq', keyOf_set_wanted]
      simpa [NoDupKeys, this] using h

theorem noDupKeys_mark_all_unwanted {q : List TileRequest} (h : NoDupKeys q) :
    NoDupKeys (mark_all_unwanted q) := by
  have : (mark_all_unwanted q).map keyOf = q.map keyOf := by
    simp [mark_all_unwanted, Function.comp, keyOf]
  simpa [NoDupKeys, this] using h

theorem noDupKeys_worker_take {q : List TileRequest} (h : NoDupKeys q) :
    NoDupKeys (applyQueueOp q .take) := by
  unfold applyQueueOp
  cases hw : worker_take q with
  | none => exact h
  | some p =>
      obtain ⟨req, q'⟩ := p
      unfold worker_take at hw
      cases hp : pick_best_tile q with
      | none => simp [hp] at hw
      | some r =>
          simp only [hp] at hw
          cases hw
          have hsub : List.Sublist (remove_request req q) q := List.eraseP_sublist q
          exact List.Nodup.sublist (hsub.map keyOf) h

theorem noDupKeys_applyQueueOp {q : List TileRequest} (h : NoDupKeys q) :
    ∀ op, NoDupKeys (applyQueueOp q op)
  | .enq _ _ _ => noDupKeys_queue_tile h
  | .markAllUnwanted => noDupKeys_mark_all_unwanted h
  | .take => noDupKeys_worker_take h

theorem noDupKeys_foldl {q : List TileRequest} (h : NoDupKeys q) :
    ∀ ops : List QueueOp, NoDupKeys (ops.foldl applyQueueOp q) := by
  intro ops
  induction ops generalizing q with
  | nil => exact h
  | cons op ops ih => exact ih (noDupKeys_applyQueueOp h op)

/-- C7: over every sequence of enqueue, demote and worker pick/remove
operations the queue never holds two entries with one key; enqueueing a key
absent from the queue pushes a single fresh wanted entry at the front; and
enqueueing a key already present rewrites exactly the first matching
entry to wanted, leaving every other entry and the order untouched. -/
theorem C7_queue_never_duplicates_keys :
    (∀ ops : List QueueOp, NoDupKeys (runQueueOps ops)) ∧
    (∀ (x y : Int) (layer : Nat) (q : List TileRequest),
       (∀ r ∈ q, r.sameKey x y layer = false) →
       queue_tile x y layer q = ⟨x, y, layer, true⟩ :: q) ∧
    (∀ (x y : Int) (layer : Nat) (q : List TileRequest) (r₀ : TileRequest),
       r₀ ∈ q → r₀.sameKey x y layer = true →
       ∃ pre r post, q = pre ++ r :: post ∧ r.sameKey x y layer = true ∧
         (∀ p ∈ pre, p.sameKey x y layer = false) ∧
         queue_tile x y layer q = pre ++ { r with wanted := true } :: post) := by
  refine ⟨?_, ?_, ?_⟩
  · intro ops
    exact noDupKeys_foldl (by simp [NoDupKeys]) ops
  · intro x y layer q habs
    unfold queue_tile
    rw [markFirstWanted_eq_none.mpr habs]
  · intro x y layer q r₀ hmem hkey
    cases hm : markFirstWanted x y layer q with
    | none =>
        have := markFirstWanted_eq_none.mp hm r₀ hmem
        simp [hkey] at this
    | some q' =>
        obtain ⟨pre, r, post, hq, hq', hkr, hpre⟩ := markFirstWanted_eq_some hm
        exact ⟨pre, r, post, hq, hkr, hpre, by simp [queue_tile, hm, hq']⟩

/-- Witness for C7 at concrete inputs: a duplicate enqueue of tile (1, 0)
layer 0 followed by an enqueue of (2, 0) yields a queue with pairwise
distinct keys, and enqueueing key (3, 0) into a queue not containing it
pushes it at the front. -/
theorem C7_queue_never_duplicates_keys_witness :
    NoDupKeys (runQueueOps [.enq 1 0 0, .enq 1 0 0, .enq 2 0 0]) ∧
    queue_tile 3 0 0 [⟨1, 0, 0, true⟩] = [⟨3, 0, 0, true⟩, ⟨1, 0, 0, true⟩] :=
  ⟨C7_queue_never_duplicates_keys.1 _,
   C7_queue_never_duplicates_keys.2.1 3 0 0 [⟨1, 0, 0, true⟩] (by decide)⟩

/- ----------------------------------------------------------------------
C9 — bounded LRU tile cache (src/sources/main.cc)
---------------------------------------------------------------------- -/

theorem move_tile_to_front_length (idx : Nat) (l : List Tile) :
    (move_tile_to_front_of_lru_cache idx l).length = l.length := by
  unfold move_tile_to_front_of_lru_cache
  cases hg : l.get? idx with
  | none => rfl
  | some t =>
      have hlt : idx < l.length := by
        by_contra hge
        rw [List.get?_eq_getElem?, List.getElem?_eq_none (Nat.le_of_not_lt hge)] at hg
        exact Option.noConfusion hg
      simp [List.length_eraseIdx_of_lt hlt]
      omega

theorem insert_new_tile_eq (cap : Nat) (t : Tile) (l : List Tile) :
    insert_new_tile cap t l = t :: (if l.length = cap then l.dropLast else l) := by
  have key : ∀ l' : List Tile,
      move_tile_to_front_of_lru_cache ((l' ++ [t]).length - 1) (l' ++ [t]) = t :: l' := by
    intro l'
    unfold move_tile_to_front_of_lru_cache
    have h1 : (l' ++ [t]).length - 1 = l'.length := by simp
    rw [h1, List.get?_eq_getElem?, List.getElem?_concat_length,
      List.eraseIdx_append_of_length_le (Nat.le_refl _)]
    simp
  exact key (if l.length = cap then l.dropLast else l)

theorem insert_tiles_no_evict (cap : Nat) :
    ∀ (ks : List Tile) (l : List Tile), l.length + ks.length ≤ cap →
      insert_tiles cap ks l = ks.reverse ++ l := by
  intro ks
  induction ks with
  | nil => intro l _; simp [insert_tiles]
  | cons t rest ih =>
      intro l hlen
      simp only [List.length_cons] at hlen
      have hstep : insert_new_tile cap t l = t :: l := by
        rw [insert_new_tile_eq, if_neg (by omega)]
      have h2 : insert_tiles cap (t :: rest) l = insert_tiles cap rest (t :: l) := by
        simp [insert_tiles, hstep]
      rw [h2, ih (t :: l) (by simp; omega)]
      simp

theorem insert_new_tile_length_le {cap : Nat} (hcap : 1 ≤ cap) (t : Tile)
    {l : List Tile} (h : l.length ≤ cap) : (insert_new_tile cap t l).length ≤ cap := by
  rw [insert_new_tile_eq]
  by_cases hc : l.length = cap
  · simp [hc, List.length_dropLast]
    omega
  · simp [hc]
    omega

/-- C9: starting from an empty tile cache of capacity cap at least one,
inserting cap plus one distinct tiles with no intervening touches leaves
precisely the last cap inserted tiles, most recent first — the first
(least-recently-touched) tile and only it is evicted; the count of any
insertion sequence never exceeds the capacity; and touching (moving to the
front) never changes the count. -/
theorem C9_lru_cache_eviction :
    (∀ (cap : Nat) (ks : List Tile), 1 ≤ cap → ks.length = cap + 1 →
       insert_tiles cap ks [] = (ks.drop 1).reverse ∧
       (insert_tiles cap ks []).length = cap ∧
       (ks.Nodup → ∀ k₀, ks.head? = some k₀ → k₀ ∉ insert_tiles cap ks [])) ∧
    (∀ (cap : Nat) (ks l : List Tile), 1 ≤ cap → l.length ≤ cap →
       (insert_tiles cap ks l).length ≤ cap) ∧
    (∀ (idx : Nat) (l : List Tile),
       (move_tile_to_front_of_lru_cache idx l).length = l.length) := by
  refine ⟨?_, ?_, move_tile_to_front_length⟩
  · intro cap ks hcap hlen
    match ks, hlen with
    | k :: rest, hlen =>
    have hrestlen : rest.length = cap := by simpa using hlen
    have hrest_ne : rest ≠ [] := by
      intro hnil
      rw [hnil] at hrestlen
      simp at hrestlen
      omega
    obtain ⟨rest₁, klast, hsplit⟩ : ∃ rest₁ klast, rest = rest₁ ++ [klast] :=
      ⟨rest.dropLast, rest.getLast hrest_ne, (List.dropLast_concat_getLast hrest_ne).symm⟩
    have hr₁len : rest₁.length = cap - 1 := by
      have := hrestlen
      rw [hsplit] at this
      simp at this
      omega
    have hmain : insert_tiles cap (k :: rest) [] = klast :: rest₁.reverse := by
      have h1 : insert_tiles cap (k :: rest) [] = insert_tiles cap rest [k] := by
        have : insert_new_tile cap k [] = [k] := by
          rw [insert_new_tile_eq, if_neg (by simp; omega)]
        simp [insert_tiles, this]
      have h2 : insert_tiles cap rest [k] =
          insert_new_tile cap klast (insert_tiles cap rest₁ [k]) := by
        rw [hsplit]
        simp [insert_tiles]
      have h3 : insert_tiles cap rest₁ [k] = rest₁.reverse ++ [k] :=
        insert_tiles_no_evict cap rest₁ [k] (by simp [hr₁len]; omega)
      have h4 : (rest₁.reverse ++ [k]).length = cap := by
        simp [hr₁len]
        omega
      rw [h1, h2, h3, insert_new_tile_eq, if_pos h4, List.dropLast_concat]
    have hshape : insert_tiles cap (k :: rest) [] = ((k :: rest).drop 1).reverse := by
      rw [hmain]
      simp [hsplit]
    refine ⟨hshape, ?_, ?_⟩
    · rw [hshape]
      simpa using hrestlen
    · intro hnd k₀ hk₀ hmem
      have hk : k = k₀ := by simpa using hk₀
      subst hk
      rw [hshape] at hmem
      simp at hmem
      have : k ∉ rest := (List.nodup_cons.mp hnd).1
      exact this hmem
  · intro cap ks
    induction ks with
    | nil => intro l _ h; simpa [insert_tiles] using h
    | cons t rest ih =>
        intro l hcap h
        have : insert_tiles cap (t :: rest) l =
            insert_tiles cap rest (insert_new_tile cap t l) := by
          simp [insert_tiles]
        rw [this]
        exact ih (insert_new_tile cap t l) hcap (insert_new_tile_length_le hcap t h)

/-- Witness for C9 at concrete inputs: capacity 2, three distinct tiles
inserted, the first one evicted. -/
theorem C9_lru_cache_eviction_witness :
    insert_tiles 2 [⟨1, 0, 0, .loading⟩, ⟨2, 0, 0, .loading⟩, ⟨3, 0, 0, .loading⟩] [] =
      [⟨3, 0, 0, .loading⟩, ⟨2, 0, 0, .loading⟩] ∧
    (⟨1, 0, 0, .loading⟩ : Tile) ∉
      insert_tiles 2 [⟨1, 0, 0, .loading⟩, ⟨2, 0, 0, .loading⟩, ⟨3, 0, 0, .loading⟩] [] := by
  have h := C9_lru_cache_eviction.1 2
    [⟨1, 0, 0, .loading⟩, ⟨2, 0, 0, .loading⟩, ⟨3, 0, 0, .loading⟩]
    (by decide) (by decide)
  exact ⟨h.1, h.2.2 (by decide) _ rfl⟩

/- ----------------------------------------------------------------------
Interval-list reader: loop lemmas
---------------------------------------------------------------------- -/

theorem chunk_eq (res : Nat → Byte) (L start pos t : Nat) (hsp : start ≤ pos)
    (ht : t ≤ L - (pos - start)) :
    ((resSlice res start L).drop (pos - start)).take t = resSlice res pos t := by
  rw [resSlice_drop, resSlice_take, Nat.add_sub_cancel' hsp, Nat.min_eq_left ht]

theorem findRange_prop {cache : List CachedRange} {pos : Nat} {r : CachedRange}
    (h : findRange cache pos = some r) :
    r ∈ cache ∧ r.start ≤ pos ∧ pos < r.start + r.data.length := by
  have hp := List.find?_some h
  have hm := List.mem_of_find?_eq_some h
  simp at hp
  exact ⟨hm, hp.1, hp.2⟩

/-- Whenever the cb_read loop finishes with the success flag, it has copied
one byte per requested position and left the local position advanced by
exactly the request size — for an arbitrary fetch oracle. -/
theorem cb_read_loop_success (fetch : FetchOracle) (N : Nat) :
    ∀ (fuel : Nat) (cache : List CachedRange) (pos remaining : Nat) (acc out : List Byte)
      (cache' : List CachedRange) (pos' : Nat),
      cb_read_loop fetch N fuel cache pos remaining acc = some (true, out, cache', pos') →
      pos' = pos + remaining ∧ out.length = acc.length + remaining := by
  intro fuel
  induction fuel with
  | zero => intro cache pos remaining acc out cache' pos' h; exact absurd h (by simp [cb_read_loop])
  | succ fuel ih =>
      intro cache pos remaining acc out cache' pos' h
      match remaining with
      | 0 =>
          simp only [cb_read_loop] at h
          obtain ⟨rfl, rfl, rfl⟩ : out = acc ∧ cache' = cache ∧ pos' = pos := by
            simpa using h.symm
          simp
      | m + 1 =>
          simp only [cb_read_loop] at h
          cases hfind : findRange cache pos with
          | some r =>
              rw [hfind] at h
              obtain ⟨-, hsp, hlt⟩ := findRange_prop hfind
              set offset := pos - r.start with hoffset
              set available := r.data.length - offset with havail
              set to_copy := min (m + 1) available with htc
              have havail1 : 1 ≤ available := by omega
              have htc_le : to_copy ≤ available := Nat.min_le_right _ _
              have htc_le2 : to_copy ≤ m + 1 := Nat.min_le_left _ _
              have htc1 : 1 ≤ to_copy := by omega
              have hchunklen : ((r.data.drop offset).take to_copy).length = to_copy := by
                simp
                omega
              obtain ⟨h1, h2⟩ := ih _ _ _ _ _ _ _ h
              constructor
              · omega
              · rw [List.length_append, hchunklen] at h2
                omega
          | none =>
              rw [hfind] at h
              cases hf : fetch pos (min (pos + 65535) (N - 1)) with
              | none =>
                  rw [hf] at h
                  simp at h
              | some data =>
                  rw [hf] at h
                  exact ih _ _ _ _ _ _ _ h

/-- With the honest oracle and a well-formed cache, the cb_read loop with
fuel two times the remaining count plus one always succeeds, returns the
resource bytes of the requested span, and preserves well-formedness. -/
theorem cb_read_loop_honest (res : Nat → Byte) (N : Nat) :
    ∀ (remaining fuel : Nat) (cache : List CachedRange) (pos : Nat) (acc : List Byte),
      CacheWF res N cache → pos + remaining ≤ N → 2 * remaining + 1 ≤ fuel →
      ∃ cache', cb_read_loop (honestFetch res) N fuel cache pos remaining acc =
          some (true, acc ++ resSlice res pos remaining, cache', pos + remaining) ∧
        CacheWF res N cache' := by
  intro remaining
  induction remaining using Nat.strong_induction_on with
  | _ remaining ih =>
  intro fuel cache pos acc hwf hle hfuel
  match remaining, fuel, hfuel with
  | 0, fuel + 1, _ =>
      exact ⟨cache, by simp [cb_read_loop, resSlice_zero], hwf⟩
  | m + 1, fuel + 1, hfuel =>
  cases hfind : findRange cache pos with
  | some r =>
      obtain ⟨hmem, hsp, hlt⟩ := findRange_prop hfind
      obtain ⟨hdata, hbound⟩ := hwf r hmem
      set offset := pos - r.start with hoffset
      set available := r.data.length - offset with havail
      set to_copy := min (m + 1) available with htc
      have havail1 : 1 ≤ available := by omega
      have htc_le : to_copy ≤ available := Nat.min_le_right _ _
      have htc_le2 : to_copy ≤ m + 1 := Nat.min_le_left _ _
      have htc1 : 1 ≤ to_copy := by omega
      have hchunk : (r.data.drop offset).take to_copy = resSlice res pos to_copy := by
        conv => lhs; rw [hdata]
        exact chunk_eq res r.data.length r.start pos to_copy hsp (by omega)
      obtain ⟨cache', hloop, hwf'⟩ :=
        ih (m + 1 - to_copy) (by omega) fuel cache (pos + to_copy) (acc ++ resSlice res pos to_copy)
          hwf (by omega) (by omega)
      refine ⟨cache', ?_, hwf'⟩
      simp only [cb_read_loop, hfind, ← hoffset, ← havail, ← htc, hchunk, hloop]
      have hjoin : (acc ++ resSlice res pos to_copy) ++
          resSlice res (pos + to_copy) (m + 1 - to_copy) = acc ++ resSlice res pos (m + 1) := by
        rw [List.append_assoc, resSlice_append, Nat.add_sub_cancel' (by omega)]
      rw [hjoin]
      have hpos : pos + to_copy + (m + 1 - to_copy) = pos + (m + 1) := by omega
      rw [hpos]
  | none =>
      have hposN : pos + 1 ≤ N := by omega
      set fetch_end := min (pos + 65535) (N - 1) with hfe
      have hfe_ge : pos ≤ fetch_end := by omega
      have hfe_le : fetch_end ≤ N - 1 := Nat.min_le_right _ _
      set data := resSlice res pos (fetch_end + 1 - pos) with hdata
      have hdatalen : data.length = fetch_end + 1 - pos := by simp [hdata]
      have hdatalen1 : 1 ≤ data.length := by rw [hdatalen]; omega
      set cache₂ := cache ++ [⟨pos, data⟩] with hc₂
      have hwf₂ : CacheWF res N cache₂ := by
        intro r hr
        rw [hc₂] at hr
        rcases List.mem_append.mp hr with hr | hr
        · exact hwf r hr
        · have : r = ⟨pos, data⟩ := by simpa using hr
          subst this
          refine ⟨by simp [hdatalen, hdata], ?_⟩
          simp [hdatalen]
          omega
      have hfind₂ : findRange cache₂ pos = some ⟨pos, data⟩ := by
        rw [hc₂]
        unfold findRange at hfind ⊢
        rw [List.find?_append, hfind, Option.none_or, List.find?_singleton, if_pos]
        simp
        omega
      match fuel, hfuel with
      | fuel + 1, hfuel =>
      set offset := pos - pos with hoffset
      set available := data.length - offset with havail
      set to_copy := min (m + 1) available with htc
      have hoffset0 : offset = 0 := by omega
      have havail_eq : available = data.length := by omega
      have htc_le : to_copy ≤ available := Nat.min_le_right _ _
      have htc_le2 : to_copy ≤ m + 1 := Nat.min_le_left _ _
      have htc1 : 1 ≤ to_copy := by omega
      have hchunk : (data.drop offset).take to_copy = resSlice res pos to_copy := by
        conv => lhs; rw [hdata]
        have := chunk_eq res (fetch_end + 1 - pos) pos pos to_copy (Nat.le_refl pos)
        rw [Nat.sub_self] at this
        have harg : to_copy ≤ fetch_end + 1 - pos - 0 := by
          rw [Nat.sub_zero]
          omega
        have h2 := this harg
        rw [hoffset]
        rw [Nat.sub_self]
        exact h2
      obtain ⟨cache', hloop, hwf'⟩ :=
        ih (m + 1 - to_copy) (by omega) fuel cache₂ (pos + to_copy) (acc ++ resSlice res pos to_copy)
          hwf₂ (by omega) (by omega)
      refine ⟨cache', ?_, hwf'⟩
      simp only [cb_read_loop, hfind, ← hfe, honestFetch, ← hdata, ← hc₂]
      simp only [cb_read_loop, hfind₂]
      simp only [← hoffset, ← havail, ← htc, hchunk, hloop]
      have hjoin : (acc ++ resSlice res pos to_copy) ++
          resSlice res (pos + to_copy) (m + 1 - to_copy) = acc ++ resSlice res pos (m + 1) := by
        rw [List.append_assoc, resSlice_append, Nat.add_sub_cancel' (by omega)]
      rw [hjoin]
      have hpos : pos + to_copy + (m + 1 - to_copy) = pos + (m + 1) := by omega
      rw [hpos]

/-- Single-read specification over the honest oracle: a read of size bytes
inside the file returns size_reached, yields the resource bytes at the
stream position, advances the position by size and keeps the cache
well-formed. -/
theorem cb_read_honest (res : Nat → Byte) (st : ReaderState) (size : Nat)
    (hwf : CacheWF res st.file_size st.cache)
    (hle : st.current_position + size ≤ st.file_size) :
    ∃ cache', cb_read (honestFetch res) st size (2 * size + 1) =
        some (.size_reached, resSlice res st.current_position size,
              { st with cache := cache', current_position := st.current_position + size }) ∧
      CacheWF res st.file_size cache' := by
  obtain ⟨cache', hloop, hwf'⟩ :=
    cb_read_loop_honest res st.file_size size (2 * size + 1) st.cache st.current_position []
      hwf hle (Nat.le_refl _)
  refine ⟨cache', ?_, hwf'⟩
  unfold cb_read
  rw [if_neg (by omega), hloop]
  simp

theorem readAll_honest (res : Nat → Byte) :
    ∀ (sizes : List Nat) (st : ReaderState),
      CacheWF res st.file_size st.cache →
      st.current_position + sizes.sum ≤ st.file_size →
      ∃ st', readAll (honestFetch res) sizes st =
          some (resSlice res st.current_position sizes.sum, st') ∧
        st'.current_position = st.current_position + sizes.sum ∧
        st'.file_size = st.file_size ∧ CacheWF res st'.file_size st'.cache := by
  intro sizes
  induction sizes with
  | nil =>
      intro st hwf _
      exact ⟨st, by simp [readAll, resSlice_zero], by simp, rfl, hwf⟩
  | cons size rest ih =>
      intro st hwf hle
      simp only [List.sum_cons] at hle
      obtain ⟨cache', hread, hwf'⟩ := cb_read_honest res st size hwf (by omega)
      set st₂ : ReaderState :=
        { st with cache := cache', current_position := st.current_position + size } with hst₂
      obtain ⟨st', hrest, hpos', hfs', hwf''⟩ := ih st₂ hwf' (by simp [hst₂]; omega)
      refine ⟨st', ?_, by simp [hpos', hst₂]; omega, by simpa [hst₂] using hfs', hwf''⟩
      simp only [readAll, hread, hrest, Option.map_some']
      have : resSlice res st.current_position size ++
          resSlice res (st.current_position + size) rest.sum =
          resSlice res st.current_position (size + rest.sum) := resSlice_append res _ _ _
      rw [this, List.sum_cons]

/- ----------------------------------------------------------------------
C2 — sequential read round trip (src/sources/http_reader.cc, cb_read)
---------------------------------------------------------------------- -/

/-- C2: over a resource of N bytes, with every range fetch returning
exactly the requested resource bytes, reading sequentially from position 0
through N via the interval-list cb_read reproduces the resource exactly,
for every partition of [0, N) into consecutive reads and every starting
cache of previously fetched (possibly overlapping or adjacent) spans. -/
theorem C2_sequential_read_roundtrip (res : Nat → Byte) (N : Nat) (sizes : List Nat)
    (cache₀ : List CachedRange) (hwf : CacheWF res N cache₀) (hsum : sizes.sum = N) :
    ∃ st', readAll (honestFetch res) sizes ⟨N, 0, cache₀⟩ =
        some (resSlice res 0 N, st') ∧ st'.current_position = N := by
  obtain ⟨st', hrun, hpos, -, -⟩ :=
    readAll_honest res sizes ⟨N, 0, cache₀⟩ hwf (by simp [hsum])
  exact ⟨st', by simpa [hsum] using hrun, by simpa [hsum] using hpos⟩

/-- Witness for C2 at concrete inputs: a 3-byte resource read as one byte
then two bytes, starting from a cache already holding an overlapping span. -/
theorem C2_sequential_read_roundtrip_witness :
    ∃ st', readAll (honestFetch (fun i => 100 + i)) [1, 2]
        ⟨3, 0, [⟨1, [101, 102]⟩]⟩ =
        some (resSlice (fun i => 100 + i) 0 3, st') ∧ st'.current_position = 3 := by
  apply C2_sequential_read_roundtrip (fun i => 100 + i) 3 [1, 2] [⟨1, [101, 102]⟩]
  · intro r hr
    have : r = ⟨1, [101, 102]⟩ := by simpa using hr
    subst this
    constructor
    · show [101, 102] = resSlice (fun i => 100 + i) 1 2
      rfl
    · show 1 + 2 ≤ 3
      omega
  · rfl

/- ----------------------------------------------------------------------
C6 — read status and position accounting (src/sources/http_reader.cc)
---------------------------------------------------------------------- -/

/-- C6 (amended): cb_read fails with size_beyond_eof and no state change
when the read would pass the end of the file; a successful read copies
exactly size bytes and advances the position by size; and every
size_beyond_eof return — including a mid-read fetch failure after some
bytes were already copied into the caller buffer — leaves the position
unchanged (the source returns before the position assignment). -/
theorem C6_read_position_accounting (fetch : FetchOracle) (st : ReaderState)
    (size fuel : Nat) :
    (st.file_size < st.current_position + size →
       cb_read fetch st size fuel = some (.size_beyond_eof, [], st)) ∧
    (∀ out st', cb_read fetch st size fuel = some (.size_reached, out, st') →
       out.length = size ∧ st'.current_position = st.current_position + size) ∧
    (∀ out st', cb_read fetch st size fuel = some (.size_beyond_eof, out, st') →
       st'.current_position = st.current_position) := by
  refine ⟨?_, ?_, ?_⟩
  · intro hgt
    unfold cb_read
    rw [if_pos hgt]
  · intro out st' h
    unfold cb_read at h
    by_cases hgt : st.file_size < st.current_position + size
    · rw [if_pos hgt] at h
      simp at h
    · rw [if_neg hgt] at h
      cases hloop : cb_read_loop fetch st.file_size fuel st.cache st.current_position size []
        with
      | none => rw [hloop] at h; simp at h
      | some r =>
          obtain ⟨ok, out₂, cache₂, pos₂⟩ := r
          rw [hloop] at h
          cases ok with
          | true =>
              simp only at h
              obtain ⟨-, hout, hst⟩ : GrowStatus.size_reached = GrowStatus.size_reached ∧
                  out₂ = out ∧
                  ({ st with cache := cache₂, current_position := pos₂ } : ReaderState) = st' := by
                simpa using h
              obtain ⟨hpos, hlen⟩ :=
                cb_read_loop_success fetch st.file_size fuel st.cache st.current_position size
                  [] out₂ cache₂ pos₂ hloop
              subst hout
              constructor
              · simpa using hlen
              · rw [← hst]
                simpa using hpos
          | false => simp at h
  · intro out st' h
    unfold cb_read at h
    by_cases hgt : st.file_size < st.current_position + size
    · rw [if_pos hgt] at h
      obtain ⟨-, -, hst⟩ : GrowStatus.size_beyond_eof = GrowStatus.size_beyond_eof ∧
          ([] : List Byte) = out ∧ st = st' := by simpa using h
      rw [← hst]
    · rw [if_neg hgt] at h
      cases hloop : cb_read_loop fetch st.file_size fuel st.cache st.current_position size []
        with
      | none => rw [hloop] at h; simp at h
      | some r =>
          obtain ⟨ok, out₂, cache₂, pos₂⟩ := r
          rw [hloop] at h
          cases ok with
          | true => simp at h
          | false =>
              obtain ⟨-, -, hst⟩ : GrowStatus.size_beyond_eof = GrowStatus.size_beyond_eof ∧
                  out₂ = out ∧ ({ st with cache := cache₂ } : ReaderState) = st' := by
                simpa using h
              rw [← hst]

/-- Witness for C6 at concrete inputs: a 2-byte file, read of 3 bytes from
position 0 rejected as beyond eof with the state unchanged. -/
theorem C6_read_position_accounting_witness :
    cb_read (fun _ _ => none) ⟨2, 0, []⟩ 3 7 = some (.size_beyond_eof, [], ⟨2, 0, []⟩) :=
  (C6_read_position_accounting (fun _ _ => none) ⟨2, 0, []⟩ 3 7).1 (by decide)

/-- Counterexample to C6 as stated: over a 2-byte file whose cache holds
only byte 0, a 2-byte read that copies one byte and then hits a fetch
failure returns size_beyond_eof with current_position still 0 — the
position does not reflect the one byte already copied into the buffer. -/
theorem C6_counterexample_position_not_advanced :
    (cb_read (fun _ _ => none) ⟨2, 0, [⟨0, [7]⟩]⟩ 2 5 =
      some (.size_beyond_eof, [7], ⟨2, 0, [⟨0, [7]⟩]⟩)) ∧
    ¬(∀ out st', cb_read (fun _ _ => none) ⟨2, 0, [⟨0, [7]⟩]⟩ 2 5 =
        some (.size_beyond_eof, out, st') →
        st'.current_position = 0 + out.length) := by
  refine ⟨by rfl, ?_⟩
  intro h
  have := h [7] ⟨2, 0, [⟨0, [7]⟩]⟩ (by rfl)
  simp at this

/- ----------------------------------------------------------------------
Fixed-block reader: cache and trimming lemmas
---------------------------------------------------------------------- -/

theorem getD_set_self {l : List (List Byte)} {i : Nat} {a : List Byte}
    (h : i < l.length) : (l.set i a).getD i [] = a := by
  simp [List.getD_eq_getElem?_getD, List.getElem?_set_self h]

theorem getD_set_ne {l : List (List Byte)} {i j : Nat} (h : i ≠ j) {a : List Byte} :
    (l.set i a).getD j [] = l.getD j [] := by
  simp [List.getD_eq_getElem?_getD, List.getElem?_set_ne h]

theorem fillBlocks_length (data : List Byte) (bs sb : Nat) :
    ∀ (count : Nat) (cache : List (List Byte)),
      (fillBlocks data bs sb count cache).length = cache.length := by
  intro count
  induction count with
  | zero => intro cache; rfl
  | succ count ih => intro cache; simp [fillBlocks, ih]

theorem fillBlocks_getD (data : List Byte) (bs sb : Nat) :
    ∀ (count : Nat) (cache : List (List Byte)) (b : Nat), sb + count ≤ cache.length →
      (fillBlocks data bs sb count cache).getD b [] =
        if sb ≤ b ∧ b < sb + count then (data.drop ((b - sb) * bs)).take bs
        else cache.getD b [] := by
  intro count
  induction count with
  | zero =>
      intro cache b _
      rw [if_neg (by omega)]
      rfl
  | succ count ih =>
      intro cache b hle
      show ((fillBlocks data bs sb count cache).set (sb + count)
          ((data.drop (count * bs)).take bs)).getD b [] = _
      by_cases hb : b = sb + count
      · subst hb
        rw [getD_set_self (by rw [fillBlocks_length]; omega), if_pos (by omega)]
        have : sb + count - sb = count := by omega
        rw [this]
      · rw [getD_set_ne (fun hc => hb hc.symm), ih cache b (by omega)]
        by_cases hb2 : sb ≤ b ∧ b < sb + count
        · rw [if_pos hb2, if_pos (by omega)]
        · rw [if_neg hb2, if_neg (by omega)]

theorem trimLowAux_spec (cache : List (List Byte)) :
    ∀ (fuel sb lb : Nat), lb + 1 - sb ≤ fuel →
      sb ≤ trimLowAux cache fuel sb lb ∧
      (∀ b, sb ≤ b → b < trimLowAux cache fuel sb lb → cache.getD b [] ≠ []) ∧
      (trimLowAux cache fuel sb lb ≤ lb → cache.getD (trimLowAux cache fuel sb lb) [] = []) := by
  intro fuel
  induction fuel with
  | zero =>
      intro sb lb hf
      simp only [trimLowAux]
      exact ⟨Nat.le_refl _, fun b h1 h2 => absurd h2 (by omega), fun h => by omega⟩
  | succ fuel ih =>
      intro sb lb hf
      by_cases hc : sb ≤ lb ∧ cache.getD sb [] ≠ []
      · have heq : trimLowAux cache (fuel + 1) sb lb = trimLowAux cache fuel (sb + 1) lb := by
          simp only [trimLowAux]
          rw [if_pos hc]
        obtain ⟨h1, h2, h3⟩ := ih (sb + 1) lb (by omega)
        rw [heq]
        refine ⟨by omega, ?_, h3⟩
        intro b hb1 hb2
        rcases Nat.eq_or_lt_of_le hb1 with rfl | hb1'
        · exact hc.2
        · exact h2 b (by omega) hb2
      · have heq : trimLowAux cache (fuel + 1) sb lb = sb := by
          simp only [trimLowAux]
          rw [if_neg hc]
        rw [heq]
        refine ⟨Nat.le_refl _, fun b h1 h2 => absurd h2 (by omega), ?_⟩
        intro hle
        by_contra hne
        exact hc ⟨hle, hne⟩

theorem trimHighAux_spec (cache : List (List Byte)) :
    ∀ (fuel sb lb : Nat), lb + 1 - sb ≤ fuel →
      (sb ≤ lb → cache.getD sb [] = []) →
      trimHighAux cache fuel sb lb ≤ lb ∧
      (∀ b, trimHighAux cache fuel sb lb < b → b ≤ lb → cache.getD b [] ≠ []) ∧
      (sb ≤ trimHighAux cache fuel sb lb →
        cache.getD (trimHighAux cache fuel sb lb) [] = []) := by
  intro fuel
  induction fuel with
  | zero =>
      intro sb lb hf _
      simp only [trimHighAux]
      exact ⟨Nat.le_refl _, fun b h1 h2 => absurd h2 (by omega), fun h => by omega⟩
  | succ fuel ih =>
      intro sb lb hf hstop
      by_cases hc : sb ≤ lb ∧ cache.getD lb [] ≠ []
      · have hslb : sb < lb := by
          rcases Nat.eq_or_lt_of_le hc.1 with rfl | h
          · exact absurd (hstop (Nat.le_refl _)) hc.2
          · exact h
        have heq : trimHighAux cache (fuel + 1) sb lb = trimHighAux cache fuel sb (lb - 1) := by
          simp only [trimHighAux]
          rw [if_pos hc]
        obtain ⟨h1, h2, h3⟩ := ih sb (lb - 1) (by omega) (fun h => hstop (by omega))
        rw [heq]
        refine ⟨by omega, ?_, h3⟩
        intro b hb1 hb2
        rcases Nat.eq_or_lt_of_le hb2 with rfl | hb2'
        · exact hc.2
        · exact h2 b hb1 (by omega)
      · have heq : trimHighAux cache (fuel + 1) sb lb = lb := by
          simp only [trimHighAux]
          rw [if_neg hc]
        rw [heq]
        refine ⟨Nat.le_refl _, fun b h1 h2 => absurd h2 (by omega), ?_⟩
        intro hle
        by_contra hne
        exact hc ⟨hle, hne⟩

theorem trimLow_spec (cache : List (List Byte)) (sb lb : Nat) :
    sb ≤ trimLow cache sb lb ∧
    (∀ b, sb ≤ b → b < trimLow cache sb lb → cache.getD b [] ≠ []) ∧
    (trimLow cache sb lb ≤ lb → cache.getD (trimLow cache sb lb) [] = []) := by
  unfold trimLow
  exact trimLowAux_spec cache _ sb lb (Nat.le_refl _)

theorem trimHigh_spec (cache : List (List Byte)) (sb lb : Nat)
    (hstop : sb ≤ lb → cache.getD sb [] = []) :
    trimHigh cache sb lb ≤ lb ∧
    (∀ b, trimHigh cache sb lb < b → b ≤ lb → cache.getD b [] ≠ []) ∧
    (sb ≤ trimHigh cache sb lb → cache.getD (trimHigh cache sb lb) [] = []) := by
  unfold trimHigh
  exact trimHighAux_spec cache _ sb lb (Nat.le_refl _) hstop

/-- When every block of the request is already filled, cb_request_range of
the fixed-block reader returns satisfied without fetching and without
touching the state. -/
theorem blk_request_range_satisfied (fetch : FetchOracle) (st : BlockReaderState)
    (start end_ : Nat)
    (hall : ∀ b, start / st.block_size ≤ b → b ≤ (end_ - 1) / st.block_size →
        st.cache.getD b [] ≠ []) :
    blk_request_range fetch st start end_ = (.size_reached, st, []) := by
  have hlow := trimLow_spec st.cache (start / st.block_size) ((end_ - 1) / st.block_size)
  have hsb_gt : (end_ - 1) / st.block_size <
      trimLow st.cache (start / st.block_size) ((end_ - 1) / st.block_size) := by
    by_contra h
    exact hall _ hlow.1 (by omega) (hlow.2.2 (by omega))
  have hhigh : trimHigh st.cache
      (trimLow st.cache (start / st.block_size) ((end_ - 1) / st.block_size))
      ((end_ - 1) / st.block_size) = (end_ - 1) / st.block_size := by
    unfold trimHigh
    have h0 : (end_ - 1) / st.block_size + 1 -
        trimLow st.cache (start / st.block_size) ((end_ - 1) / st.block_size) = 0 := by
      omega
    rw [h0]
    rfl
  simp only [blk_request_range]
  rw [hhigh, if_pos hsb_gt]

/-- When some block of the request is empty, cb_request_range of the
fixed-block reader trims the filled fringes, then issues exactly one fetch
over the trimmed block-aligned span clamped to the file size, slicing the
result into the block slots on success. -/
theorem blk_request_range_not_satisfied (fetch : FetchOracle) (st : BlockReaderState)
    (start end_ : Nat)
    (hne : ¬∀ b, start / st.block_size ≤ b → b ≤ (end_ - 1) / st.block_size →
        st.cache.getD b [] ≠ []) :
    ∃ sb lb, start / st.block_size ≤ sb ∧ sb ≤ lb ∧ lb ≤ (end_ - 1) / st.block_size ∧
      st.cache.getD sb [] = [] ∧ st.cache.getD lb [] = [] ∧
      (∀ b, start / st.block_size ≤ b → b < sb → st.cache.getD b [] ≠ []) ∧
      (∀ b, lb < b → b ≤ (end_ - 1) / st.block_size → st.cache.getD b [] ≠ []) ∧
      blk_request_range fetch st start end_ =
        (match fetch (sb * st.block_size)
            (min (lb * st.block_size + st.block_size) st.file_size - 1) with
         | none => (.fetch_error, st,
             [(sb * st.block_size,
               min (lb * st.block_size + st.block_size) st.file_size - 1)])
         | some data => (.size_reached,
             { st with cache :=
                 fillBlocks data st.block_size sb (lb + 1 - sb) st.cache },
             [(sb * st.block_size,
               min (lb * st.block_size + st.block_size) st.file_size - 1)])) := by
  push_neg at hne
  obtain ⟨bw, hbw1, hbw2, hbw3⟩ := hne
  set b0 := start / st.block_size with hb0
  set b1 := (end_ - 1) / st.block_size with hb1
  have hlow := trimLow_spec st.cache b0 b1
  set sb := trimLow st.cache b0 b1 with hsb
  have hsb_le : sb ≤ b1 := by
    by_contra h
    exact hlow.2.1 bw hbw1 (by omega) hbw3
  have hsb_empty := hlow.2.2 hsb_le
  have hhigh := trimHigh_spec st.cache sb b1 (fun _ => hsb_empty)
  set lb := trimHigh st.cache sb b1 with hlb
  have hlb_ge : sb ≤ lb := by
    by_contra h
    exact hhigh.2.1 sb (by omega) hsb_le hsb_empty
  refine ⟨sb, lb, hlow.1, hlb_ge, hhigh.1, hsb_empty, hhigh.2.2 hlb_ge,
    hlow.2.1, hhigh.2.1, ?_⟩
  simp only [blk_request_range]
  rw [← hb0, ← hb1, ← hsb, ← hlb, if_neg (by omega)]

theorem lt_numBlocks {N bs b1 : Nat} (hbs : 1 ≤ bs) (hN : 1 ≤ N)
    (h : b1 ≤ (N - 1) / bs) : b1 < numBlocks N bs := by
  have h2 : (N - 1 + bs) / bs = (N - 1) / bs + 1 := Nat.add_div_right _ (by omega)
  have h3 : numBlocks N bs = (N - 1 + bs) / bs := by
    unfold numBlocks
    congr 1
    omega
  omega

/-- The slice a block receives from a block-aligned fetch has exactly the
full block size. -/
theorem filled_block_length {N bs sb lb b1 : Nat} (hbs : 1 ≤ bs) (hlb1 : lb ≤ b1)
    (_hb1 : b1 * bs ≤ N - 1) (_hN : 1 ≤ N) (data : List Byte)
    (hdlen : data.length = min (lb * bs + bs) N - sb * bs)
    (b : Nat) (hsb : sb ≤ b) (hble : b ≤ lb) :
    ((data.drop ((b - sb) * bs)).take bs).length = blockFullSize N bs b := by
  have hm1 : sb * bs ≤ b * bs := Nat.mul_le_mul_right bs hsb
  have hm2 : b * bs ≤ lb * bs := Nat.mul_le_mul_right bs hble
  have hm3 : lb * bs ≤ b1 * bs := Nat.mul_le_mul_right bs hlb1
  have hsub : (b - sb) * bs = b * bs - sb * bs := Nat.sub_mul b sb bs
  simp only [List.length_take, List.length_drop, blockFullSize, hdlen, hsub]
  omega

theorem blk_read_cache_unchanged (fetch : FetchOracle) (st : BlockReaderState)
    (size : Nat) : (blk_read fetch st size).2.2.1.cache = st.cache := by
  simp only [blk_read]
  split
  · rfl
  · split
    · rfl
    · split <;> rfl

theorem blockInv_replicate (N bs n : Nat) : BlockInv N bs (List.replicate n []) := by
  intro b
  left
  rw [List.getD_eq_getElem?_getD, List.getElem?_replicate]
  split <;> rfl

/- ----------------------------------------------------------------------
C4 — fixed-block cache fill invariant (src/sources/http_reader_blockcache.cc)
---------------------------------------------------------------------- -/

/-- C4: after any request_range on the fixed-block reader (fetch transfers
modelled as returning exactly the requested bytes when they succeed), every
block of the requested span is fully filled — block_size bytes, or the
remainder of the file for its final block — unless the call returned the
error status; the binary full-or-empty block invariant and the slot count
are preserved by every outcome, and a read never touches the block cache,
so no operation leaves a partially filled block. -/
theorem C4_request_range_fills_blocks (fetch : FetchOracle) (st : BlockReaderState)
    (start end_ : Nat) (hex : ExactLen fetch) (hbs : 1 ≤ st.block_size)
    (hlen : st.cache.length = numBlocks st.file_size st.block_size)
    (hinv : BlockInv st.file_size st.block_size st.cache)
    (hse : start < end_) (hend : end_ ≤ st.file_size) :
    ((blk_request_range fetch st start end_).1 ≠ .fetch_error →
      ∀ b, start / st.block_size ≤ b → b ≤ (end_ - 1) / st.block_size →
        ((blk_request_range fetch st start end_).2.1.cache.getD b []).length =
          blockFullSize st.file_size st.block_size b) ∧
    BlockInv st.file_size st.block_size (blk_request_range fetch st start end_).2.1.cache ∧
    (blk_request_range fetch st start end_).2.1.cache.length = st.cache.length ∧
    (∀ (fetch₂ : FetchOracle) (st₂ : BlockReaderState) (size : Nat),
       (blk_read fetch₂ st₂ size).2.2.1.cache = st₂.cache) := by
  by_cases hall : ∀ b, start / st.block_size ≤ b → b ≤ (end_ - 1) / st.block_size →
      st.cache.getD b [] ≠ []
  · rw [blk_request_range_satisfied fetch st start end_ hall]
    refine ⟨?_, hinv, rfl, blk_read_cache_unchanged⟩
    intro _ b h1 h2
    rcases hinv b with h | h
    · exact absurd h (hall b h1 h2)
    · exact h
  · obtain ⟨sb, lb, hsb0, hsblb, hlbb1, hsbE, hlbE, hlowNE, hhighNE, heq⟩ :=
      blk_request_range_not_satisfied fetch st start end_ hall
    have hN1 : 1 ≤ st.file_size := by omega
    have hb1bs : (end_ - 1) / st.block_size * st.block_size ≤ end_ - 1 :=
      Nat.div_mul_le_self _ _
    have hb1N : (end_ - 1) / st.block_size * st.block_size ≤ st.file_size - 1 := by omega
    cases hf : fetch (sb * st.block_size)
        (min (lb * st.block_size + st.block_size) st.file_size - 1) with
    | none =>
        rw [hf] at heq
        rw [heq]
        exact ⟨fun h => absurd rfl h, hinv, rfl, blk_read_cache_unchanged⟩
    | some data =>
        rw [hf] at heq
        rw [heq]
        have hcount : sb + (lb + 1 - sb) ≤ st.cache.length := by
          have hlb_lt : lb < numBlocks st.file_size st.block_size :=
            lt_numBlocks hbs hN1 (le_trans hlbb1 (Nat.div_le_div_right (by omega)))
          omega
        have hmsb : sb * st.block_size ≤ lb * st.block_size :=
          Nat.mul_le_mul_right _ hsblb
        have hmlb : lb * st.block_size ≤ (end_ - 1) / st.block_size * st.block_size :=
          Nat.mul_le_mul_right _ hlbb1
        have hdlen : data.length =
            min (lb * st.block_size + st.block_size) st.file_size - sb * st.block_size := by
          have hx := hex _ _ _ hf
          omega
        have hget : ∀ b,
            (fillBlocks data st.block_size sb (lb + 1 - sb) st.cache).getD b [] =
              if sb ≤ b ∧ b < sb + (lb + 1 - sb) then
                (data.drop ((b - sb) * st.block_size)).take st.block_size
              else st.cache.getD b [] :=
          fun b => fillBlocks_getD data st.block_size sb (lb + 1 - sb) st.cache b hcount
        refine ⟨?_, ?_, fillBlocks_length _ _ _ _ _, blk_read_cache_unchanged⟩
        · intro _ b h1 h2
          by_cases hbin : sb ≤ b ∧ b ≤ lb
          · rw [hget b, if_pos (by omega)]
            exact filled_block_length hbs hlbb1 hb1N hN1 data hdlen b hbin.1 hbin.2
          · rw [hget b, if_neg (by omega)]
            have hne2 : st.cache.getD b [] ≠ [] := by
              rcases Nat.lt_or_ge b sb with h | h
              · exact hlowNE b h1 h
              · exact hhighNE b (by omega) h2
            rcases hinv b with h | h
            · exact absurd h hne2
            · exact h
        · intro b
          by_cases hbin : sb ≤ b ∧ b < sb + (lb + 1 - sb)
          · right
            rw [hget b, if_pos hbin]
            exact filled_block_length hbs hlbb1 hb1N hN1 data hdlen b hbin.1 (by omega)
          · rw [hget b, if_neg hbin]
            exact hinv b

/-- Witness for C4 at concrete inputs: a 100-byte resource, block size 16,
empty cache; request_range(0, 20) fills blocks 0 and 1 completely. -/
theorem C4_request_range_fills_blocks_witness :
    ((blk_request_range (honestFetch fun _ => 0) ⟨100, 0, 16, List.replicate 7 []⟩
        0 20).2.1.cache.getD 1 []).length = 16 := by
  have h := C4_request_range_fills_blocks (honestFetch fun _ => 0)
    ⟨100, 0, 16, List.replicate 7 []⟩ 0 20 (honestFetch_exactLen _) (by decide)
    (by decide)
    (blockInv_replicate 100 16 7)
    (by decide) (by decide)
  have h2 := h.1 (by decide) 1 (by decide) (by decide)
  simpa [blockFullSize] using h2

/- ----------------------------------------------------------------------
C3 — request_range idempotence (both cache policies)
---------------------------------------------------------------------- -/

/-- After a successful fetch-branch request on the fixed-block reader,
every block of the requested span is nonempty. -/
theorem blk_request_range_fill_nonempty (st : BlockReaderState) (start end_ : Nat)
    {sb lb : Nat} (hbs : 1 ≤ st.block_size)
    (hlen : st.cache.length = numBlocks st.file_size st.block_size)
    (hse : start < end_) (hend : end_ ≤ st.file_size)
    (_hsb0 : start / st.block_size ≤ sb) (hsblb : sb ≤ lb)
    (hlbb1 : lb ≤ (end_ - 1) / st.block_size)
    (hlowNE : ∀ b, start / st.block_size ≤ b → b < sb → st.cache.getD b [] ≠ [])
    (hhighNE : ∀ b, lb < b → b ≤ (end_ - 1) / st.block_size → st.cache.getD b [] ≠ [])
    (data : List Byte)
    (hdlen : data.length =
      min (lb * st.block_size + st.block_size) st.file_size - sb * st.block_size) :
    ∀ b, start / st.block_size ≤ b → b ≤ (end_ - 1) / st.block_size →
      (fillBlocks data st.block_size sb (lb + 1 - sb) st.cache).getD b [] ≠ [] := by
  have hN1 : 1 ≤ st.file_size := by omega
  have hb1bs : (end_ - 1) / st.block_size * st.block_size ≤ end_ - 1 :=
    Nat.div_mul_le_self _ _
  have hb1N : (end_ - 1) / st.block_size * st.block_size ≤ st.file_size - 1 := by omega
  have hcount : sb + (lb + 1 - sb) ≤ st.cache.length := by
    have hlb_lt : lb < numBlocks st.file_size st.block_size :=
      lt_numBlocks hbs hN1 (le_trans hlbb1 (Nat.div_le_div_right (by omega)))
    omega
  have hget : ∀ b,
      (fillBlocks data st.block_size sb (lb + 1 - sb) st.cache).getD b [] =
        if sb ≤ b ∧ b < sb + (lb + 1 - sb) then
          (data.drop ((b - sb) * st.block_size)).take st.block_size
        else st.cache.getD b [] :=
    fun b => fillBlocks_getD data st.block_size sb (lb + 1 - sb) st.cache b hcount
  intro b h1 h2
  by_cases hbin : sb ≤ b ∧ b ≤ lb
  · rw [hget b, if_pos (by omega)]
    have hfull := filled_block_length hbs hlbb1 hb1N hN1 data hdlen b hbin.1 hbin.2
    have hmb : b * st.block_size ≤ (end_ - 1) / st.block_size * st.block_size :=
      Nat.mul_le_mul_right _ (by omega)
    intro hnil
    rw [hnil] at hfull
    simp [blockFullSize] at hfull
    omega
  · rw [hget b, if_neg (by omega)]
    rcases Nat.lt_or_ge b sb with h | h
    · exact hlowNE b h1 h
    · exact hhighNE b (by omega) h2

/-- C3: on both reader policies, once request_range(a, b) has returned the
satisfied status, issuing the same request again on the resulting state
performs no network fetch and returns satisfied, provided no release
occurred in between (the two calls are consecutive). -/
theorem C3_second_request_range_fetch_free :
    (∀ (fetch : FetchOracle) (st : ReaderState) (start end_ : Nat),
       ExactLen fetch → start < end_ →
       ∀ st₁ log, cb_request_range fetch st start end_ = (.size_reached, st₁, log) →
       cb_request_range fetch st₁ start end_ = (.size_reached, st₁, [])) ∧
    (∀ (fetch : FetchOracle) (st : BlockReaderState) (start end_ : Nat),
       ExactLen fetch → 1 ≤ st.block_size →
       st.cache.length = numBlocks st.file_size st.block_size →
       start < end_ → end_ ≤ st.file_size →
       ∀ st₁ log, blk_request_range fetch st start end_ = (.size_reached, st₁, log) →
       blk_request_range fetch st₁ start end_ = (.size_reached, st₁, [])) := by
  constructor
  · intro fetch st start end_ hex hse st₁ log h
    simp only [cb_request_range] at h
    cases hc : st.cache.any
        (fun r => r.start ≤ start && end_ - 1 < r.start + r.data.length) with
    | true =>
        rw [hc] at h
        simp only [if_true] at h
        obtain ⟨hst, -⟩ : st = st₁ ∧ ([] : List (Nat × Nat)) = log := by simpa using h
        subst hst
        simp only [cb_request_range]
        rw [hc]
        simp
    | false =>
        rw [hc] at h
        simp only [Bool.false_eq_true, if_false] at h
        cases hf : fetch start (end_ - 1) with
        | none => rw [hf] at h; simp at h
        | some data =>
            rw [hf] at h
            obtain ⟨hst, -⟩ :
                ({ st with cache := st.cache ++ [⟨start, data⟩] } : ReaderState) = st₁ ∧
                  [(start, end_ - 1)] = log := by simpa using h
            subst hst
            have hdl := hex _ _ _ hf
            have hany : (st.cache ++ [(⟨start, data⟩ : CachedRange)]).any
                (fun r => r.start ≤ start && end_ - 1 < r.start + r.data.length) = true := by
              rw [List.any_append]
              have : ((⟨start, data⟩ : CachedRange).start ≤ start &&
                  end_ - 1 < (⟨start, data⟩ : CachedRange).start +
                    (⟨start, data⟩ : CachedRange).data.length) = true := by
                simp only [Bool.and_eq_true, decide_eq_true_eq]
                refine ⟨Nat.le_refl _, ?_⟩
                simp only [hdl]
                omega
              have h2 : ([(⟨start, data⟩ : CachedRange)].any
                  (fun r => r.start ≤ start && end_ - 1 < r.start + r.data.length)) = true := by
                simp only [List.any_cons, List.any_nil, Bool.or_false]
                exact this
              rw [h2, Bool.or_true]
            simp only [cb_request_range]
            rw [hany]
            simp
  · intro fetch st start end_ hex hbs hlen hse hend st₁ log h
    by_cases hall : ∀ b, start / st.block_size ≤ b → b ≤ (end_ - 1) / st.block_size →
        st.cache.getD b [] ≠ []
    · rw [blk_request_range_satisfied fetch st start end_ hall] at h
      obtain ⟨hst, -⟩ : st = st₁ ∧ ([] : List (Nat × Nat)) = log := by simpa using h
      subst hst
      exact blk_request_range_satisfied fetch st start end_ hall
    · obtain ⟨sb, lb, hsb0, hsblb, hlbb1, hsbE, hlbE, hlowNE, hhighNE, heq⟩ :=
        blk_request_range_not_satisfied fetch st start end_ hall
      cases hf : fetch (sb * st.block_size)
          (min (lb * st.block_size + st.block_size) st.file_size - 1) with
      | none =>
          rw [hf] at heq
          rw [heq] at h
          simp at h
      | some data =>
          rw [hf] at heq
          rw [heq] at h
          obtain ⟨hst, -⟩ :
              ({ st with cache :=
                  fillBlocks data st.block_size sb (lb + 1 - sb) st.cache } :
                BlockReaderState) = st₁ ∧
                [(sb * st.block_size,
                  min (lb * st.block_size + st.block_size) st.file_size - 1)] = log := by
            simpa using h
          subst hst
          have hmsb : sb * st.block_size ≤ lb * st.block_size :=
            Nat.mul_le_mul_right _ hsblb
          have hmlb : lb * st.block_size ≤ (end_ - 1) / st.block_size * st.block_size :=
            Nat.mul_le_mul_right _ hlbb1
          have hb1bs : (end_ - 1) / st.block_size * st.block_size ≤ end_ - 1 :=
            Nat.div_mul_le_self _ _
          have hdlen : data.length =
              min (lb * st.block_size + st.block_size) st.file_size -
                sb * st.block_size := by
            have hx := hex _ _ _ hf
            omega
          exact blk_request_range_satisfied fetch _ start end_
            (blk_request_range_fill_nonempty st start end_ hbs hlen hse hend
              hsb0 hsblb hlbb1 hlowNE hhighNE data hdlen)

/-- Witness for C3 at concrete inputs: requesting bytes 2 to 5 of a 10-byte
resource twice on each policy, the second call fetch-free and satisfied. -/
theorem C3_second_request_range_fetch_free_witness :
    cb_request_range (honestFetch fun i => i) ⟨10, 0, [⟨2, [2, 3, 4]⟩]⟩ 2 5 =
      (.size_reached, ⟨10, 0, [⟨2, [2, 3, 4]⟩]⟩, []) ∧
    blk_request_range (honestFetch fun _ => 0)
        ⟨100, 0, 16, (List.replicate 7 []).set 0 (List.replicate 16 0) |>.set 1
          (List.replicate 16 0)⟩ 0 20 =
      (.size_reached,
       ⟨100, 0, 16, (List.replicate 7 []).set 0 (List.replicate 16 0) |>.set 1
          (List.replicate 16 0)⟩, []) := by
  constructor
  · have h1 : cb_request_range (honestFetch fun i => i) ⟨10, 0, []⟩ 2 5 =
        (.size_reached, ⟨10, 0, [⟨2, [2, 3, 4]⟩]⟩, [(2, 4)]) := by rfl
    have h2 := C3_second_request_range_fetch_free.1 (honestFetch fun i => i)
      ⟨10, 0, []⟩ 2 5 (honestFetch_exactLen _) (by decide) _ _ h1
    exact h2
  · have h1 : blk_request_range (honestFetch fun _ => 0) ⟨100, 0, 16, List.replicate 7 []⟩
        0 20 =
        (.size_reached,
         ⟨100, 0, 16, (List.replicate 7 []).set 0 (List.replicate 16 0) |>.set 1
            (List.replicate 16 0)⟩, [(0, 31)]) := by rfl
    have h2 := C3_second_request_range_fetch_free.2 (honestFetch fun _ => 0)
      ⟨100, 0, 16, List.replicate 7 []⟩ 0 20 (honestFetch_exactLen _) (by decide)
      (by decide) (by decide) (by decide) _ _ h1
    exact h2

/- ----------------------------------------------------------------------
C5 — block-aligned fetch scenario (src/sources/http_reader_blockcache.cc)
---------------------------------------------------------------------- -/

theorem blk_request_range_fetch_count (fetch : FetchOracle) (st : BlockReaderState)
    (start end_ : Nat) : ((blk_request_range fetch st start end_).2.2).length ≤ 1 := by
  simp only [blk_request_range]
  split
  · simp
  · split <;> simp

/-- C5: on a 1,000,000-byte resource with block size 65536 and an empty
cache, request_range(0, 70000) issues exactly one fetch, covering exactly
bytes 0 through 131071 (the two full blocks), after which blocks 0 and 1
hold 65536 bytes each; a following request_range(60000, 70000) issues no
fetch and returns satisfied; and in general every request_range call of
the fixed-block reader issues at most one network request. -/
theorem C5_block_alignment_scenario (res : Nat → Byte) :
    ((blk_request_range (honestFetch res) ⟨1000000, 0, 65536, List.replicate 16 []⟩
        0 70000).2.2 = [(0, 131071)]) ∧
    ((blk_request_range (honestFetch res) ⟨1000000, 0, 65536, List.replicate 16 []⟩
        0 70000).1 = .size_reached) ∧
    (((blk_request_range (honestFetch res) ⟨1000000, 0, 65536, List.replicate 16 []⟩
        0 70000).2.1.cache.getD 0 []).length = 65536) ∧
    (((blk_request_range (honestFetch res) ⟨1000000, 0, 65536, List.replicate 16 []⟩
        0 70000).2.1.cache.getD 1 []).length = 65536) ∧
    (blk_request_range (honestFetch res)
        (blk_request_range (honestFetch res) ⟨1000000, 0, 65536, List.replicate 16 []⟩
          0 70000).2.1 60000 70000 =
      (.size_reached,
       (blk_request_range (honestFetch res) ⟨1000000, 0, 65536, List.replicate 16 []⟩
         0 70000).2.1, [])) ∧
    (∀ (fetch : FetchOracle) (st : BlockReaderState) (s e : Nat),
       ((blk_request_range fetch st s e).2.2).length ≤ 1) := by
  have hcall : blk_request_range (honestFetch res)
      ⟨1000000, 0, 65536, List.replicate 16 []⟩ 0 70000 =
      (.size_reached,
       ⟨1000000, 0, 65536,
        fillBlocks (resSlice res 0 131072) 65536 0 2 (List.replicate 16 [])⟩,
       [(0, 131071)]) := by rfl
  have hget := fun b => fillBlocks_getD (resSlice res 0 131072) 65536 0 2
    (List.replicate 16 []) b (by simp)
  have hlen0 : ((fillBlocks (resSlice res 0 131072) 65536 0 2
      (List.replicate 16 [])).getD 0 []).length = 65536 := by
    rw [hget 0, if_pos (by omega)]
    simp only [List.length_take, List.length_drop, resSlice_length]
    omega
  have hlen1 : ((fillBlocks (resSlice res 0 131072) 65536 0 2
      (List.replicate 16 [])).getD 1 []).length = 65536 := by
    rw [hget 1, if_pos (by omega)]
    simp only [List.length_take, List.length_drop, resSlice_length]
    omega
  refine ⟨by rw [hcall], by rw [hcall], by rw [hcall]; exact hlen0,
    by rw [hcall]; exact hlen1, ?_, fun fetch st s e => blk_request_range_fetch_count _ _ _ _⟩
  rw [hcall]
  apply blk_request_range_satisfied
  intro b h1 h2
  dsimp only at h1 h2 ⊢
  have hb : b = 0 ∨ b = 1 := by omega
  rcases hb with rfl | rfl
  · intro hnil
    rw [hnil] at hlen0
    simp at hlen0
  · intro hnil
    rw [hnil] at hlen1
    simp at hlen1

/- ----------------------------------------------------------------------
C10 — fixed-block cb_read and the assert branch
---------------------------------------------------------------------- -/

theorem blkCopy_zero (cache : List (List Byte)) (bs : Nat) :
    ∀ (blocks : List Nat) (pos : Nat), blkCopy cache bs blocks pos 0 = ([], pos) := by
  intro blocks
  induction blocks with
  | nil => intro pos; rfl
  | cons b rest ih =>
      intro pos
      simp [blkCopy, ih]

/-- The per-block copy loop of the fixed-block cb_read returns exactly the
resource bytes of the requested span when every listed block holds its full
resource slice. -/
theorem blkCopy_spec (res : Nat → Byte) (N bs : Nat) (hbs : 1 ≤ bs)
    (cache : List (List Byte)) :
    ∀ (count b₀ pos remaining : Nat),
      (∀ j, j < count → cache.getD (b₀ + j) [] =
          resSlice res ((b₀ + j) * bs) (blockFullSize N bs (b₀ + j))) →
      b₀ * bs ≤ pos → pos < b₀ * bs + bs →
      pos + remaining ≤ N → pos + remaining ≤ (b₀ + count) * bs →
      blkCopy cache bs (List.range' b₀ count) pos remaining =
        (resSlice res pos remaining, pos + remaining) := by
  intro count
  induction count with
  | zero =>
      intro b₀ pos remaining hcontent h1 h2 h3 h4
      simp only [Nat.add_zero] at h4
      have hr : remaining = 0 := by omega
      subst hr
      simp [List.range'_zero, blkCopy, resSlice_zero]
  | succ k ih =>
      intro b₀ pos remaining hcontent h1 h2 h3 h4
      have hcont0 : cache.getD b₀ [] =
          resSlice res (b₀ * bs) (blockFullSize N bs b₀) := by
        have h := hcontent 0 (by omega)
        simpa using h
      have hsucc : (b₀ + 1) * bs = b₀ * bs + bs := Nat.succ_mul b₀ bs
      rw [List.range'_succ]
      simp only [blkCopy]
      by_cases hcase : remaining ≤ b₀ * bs + bs - pos
      · have h5 : min remaining (b₀ * bs + bs - pos) = remaining := by omega
        rw [h5]
        have hchunk : ((cache.getD b₀ []).drop (pos - b₀ * bs)).take remaining =
            resSlice res pos remaining := by
          rw [hcont0]
          apply chunk_eq res _ _ _ _ h1
          simp only [resSlice_length, blockFullSize]
          omega
        rw [hchunk, Nat.sub_self, blkCopy_zero]
        simp
      · have h5 : min remaining (b₀ * bs + bs - pos) = b₀ * bs + bs - pos := by omega
        rw [h5]
        have hchunk : ((cache.getD b₀ []).drop (pos - b₀ * bs)).take
            (b₀ * bs + bs - pos) = resSlice res pos (b₀ * bs + bs - pos) := by
          rw [hcont0]
          apply chunk_eq res _ _ _ _ h1
          simp only [resSlice_length, blockFullSize]
          omega
        rw [hchunk]
        have hposnew : pos + (b₀ * bs + bs - pos) = (b₀ + 1) * bs := by omega
        have hrec : blkCopy cache bs (List.range' (b₀ + 1) k)
            (pos + (b₀ * bs + bs - pos)) (remaining - (b₀ * bs + bs - pos)) =
            (resSlice res (pos + (b₀ * bs + bs - pos))
              (remaining - (b₀ * bs + bs - pos)),
             pos + (b₀ * bs + bs - pos) + (remaining - (b₀ * bs + bs - pos))) := by
          rw [hposnew]
          apply ih (b₀ + 1) ((b₀ + 1) * bs) (remaining - (b₀ * bs + bs - pos))
          · intro j hj
            have h := hcontent (j + 1) (by omega)
            rwa [show b₀ + (j + 1) = b₀ + 1 + j from by omega] at h
          · exact Nat.le_refl _
          · omega
          · omega
          · have hidx : (b₀ + 1 + k) * bs = (b₀ + (k + 1)) * bs := by
              rw [show b₀ + 1 + k = b₀ + (k + 1) from by omega]
            rw [hidx]
            omega
        rw [hrec]
        have hjoin : resSlice res pos (b₀ * bs + bs - pos) ++
            resSlice res (pos + (b₀ * bs + bs - pos))
              (remaining - (b₀ * bs + bs - pos)) = resSlice res pos remaining := by
          rw [resSlice_append, Nat.add_sub_cancel' (by omega)]
        rw [hjoin]
        have : pos + (b₀ * bs + bs - pos) + (remaining - (b₀ * bs + bs - pos)) =
            pos + remaining := by omega
        rw [this]

/-- C10: the fixed-block cb_read on an in-bounds read.  When some block
overlapping the span is empty, the reader issues one fetch of up to 64 KiB
at the current position; if that transfer fails the call returns the
beyond-eof status with the state untouched, and if it succeeds the fetched
bytes are discarded without entering any block and the assert(false)
fires.  When every overlapping block is filled, no fetch is issued and the
call copies exactly the cached bytes, advancing the position by size. -/
theorem C10_block_read_assert_branch (fetch : FetchOracle) (res : Nat → Byte)
    (st : BlockReaderState) (size : Nat) (hbs : 1 ≤ st.block_size)
    (hle : st.current_position + size ≤ st.file_size) (hsz : 1 ≤ size) :
    ((¬∀ b, st.current_position / st.block_size ≤ b →
         b ≤ (st.current_position + size - 1) / st.block_size →
         st.cache.getD b [] ≠ []) →
       (fetch st.current_position
           (min (st.current_position + 65535) (st.file_size - 1)) = none →
         blk_read fetch st size = (.beyondEof, [], st,
           [(st.current_position,
             min (st.current_position + 65535) (st.file_size - 1))])) ∧
       (∀ d, fetch st.current_position
           (min (st.current_position + 65535) (st.file_size - 1)) = some d →
         blk_read fetch st size = (.assertFailed, [], st,
           [(st.current_position,
             min (st.current_position + 65535) (st.file_size - 1))]))) ∧
    ((∀ b, st.current_position / st.block_size ≤ b →
         b ≤ (st.current_position + size - 1) / st.block_size →
         st.cache.getD b [] ≠ []) →
      BlockCacheWF res st.file_size st.block_size st.cache →
      blk_read fetch st size =
        (.reached, resSlice res st.current_position size,
         { st with current_position := st.current_position + size }, [])) := by
  have hfb_le : st.current_position / st.block_size ≤
      (st.current_position + size - 1) / st.block_size :=
    Nat.div_le_div_right (by omega)
  constructor
  · intro hne
    have hcond : ((List.range' (st.current_position / st.block_size)
        ((st.current_position + size - 1) / st.block_size + 1 -
          st.current_position / st.block_size)).all
        (fun b => decide (st.cache.getD b [] ≠ []))) = false := by
      by_contra hc
      rw [Bool.not_eq_false] at hc
      apply hne
      intro b h1 h2
      have hb : b ∈ List.range' (st.current_position / st.block_size)
          ((st.current_position + size - 1) / st.block_size + 1 -
            st.current_position / st.block_size) := by
        rw [List.mem_range'_1]
        omega
      have := List.all_eq_true.mp hc b hb
      simpa using this
    constructor
    · intro hf
      simp only [blk_read]
      rw [if_neg (by omega), if_neg (by rw [hcond]; simp), hf]
    · intro d hf
      simp only [blk_read]
      rw [if_neg (by omega), if_neg (by rw [hcond]; simp), hf]
  · intro hall hwf
    have hcond : ((List.range' (st.current_position / st.block_size)
        ((st.current_position + size - 1) / st.block_size + 1 -
          st.current_position / st.block_size)).all
        (fun b => decide (st.cache.getD b [] ≠ []))) = true := by
      rw [List.all_eq_true]
      intro b hb
      rw [List.mem_range'_1] at hb
      simp only [decide_eq_true_eq]
      exact hall b hb.1 (by omega)
    have hdm := Nat.div_add_mod st.current_position st.block_size
    have hmod : st.current_position % st.block_size < st.block_size :=
      Nat.mod_lt _ (by omega)
    have hdm2 := Nat.div_add_mod (st.current_position + size - 1) st.block_size
    have hmod2 : (st.current_position + size - 1) % st.block_size < st.block_size :=
      Nat.mod_lt _ (by omega)
    have hcm1 : st.current_position / st.block_size * st.block_size =
        st.block_size * (st.current_position / st.block_size) := Nat.mul_comm _ _
    have hcopy : blkCopy st.cache st.block_size
        (List.range' (st.current_position / st.block_size)
          ((st.current_position + size - 1) / st.block_size + 1 -
            st.current_position / st.block_size))
        st.current_position size =
        (resSlice res st.current_position size, st.current_position + size) := by
      apply blkCopy_spec res st.file_size st.block_size hbs st.cache
      · intro j hj
        rcases hwf (st.current_position / st.block_size + j) with h | h
        · exact absurd h (hall _ (by omega) (by omega))
        · exact h
      · omega
      · omega
      · omega
      · have hidx : st.current_position / st.block_size +
            ((st.current_position + size - 1) / st.block_size + 1 -
              st.current_position / st.block_size) =
            (st.current_position + size - 1) / st.block_size + 1 := by omega
        rw [hidx]
        have hsm : ((st.current_position + size - 1) / st.block_size + 1) *
            st.block_size =
            (st.current_position + size - 1) / st.block_size * st.block_size +
              st.block_size := Nat.succ_mul _ _
        have hcm2 : (st.current_position + size - 1) / st.block_size *
            st.block_size =
            st.block_size * ((st.current_position + size - 1) / st.block_size) :=
          Nat.mul_comm _ _
        omega
    simp only [blk_read]
    rw [if_neg (by omega), if_pos hcond, hcopy]

/-- Witness for C10 at concrete inputs: a 100-byte resource, block size 16,
reading 8 bytes at position 4.  With an empty cache and a failing oracle
the call reports beyond-eof with the state untouched; with blocks 0 and 1
holding the resource bytes, the call returns them exactly. -/
theorem C10_block_read_assert_branch_witness :
    blk_read (fun _ _ => none) ⟨100, 4, 16, List.replicate 7 []⟩ 8 =
      (.beyondEof, [], ⟨100, 4, 16, List.replicate 7 []⟩, [(4, 99)]) ∧
    blk_read (fun _ _ => none)
        ⟨100, 4, 16, (List.replicate 7 []).set 0 (resSlice (fun i => i) 0 16)
          |>.set 1 (resSlice (fun i => i) 16 16)⟩ 8 =
      (.reached, resSlice (fun i => i) 4 8,
       ⟨100, 12, 16, (List.replicate 7 []).set 0 (resSlice (fun i => i) 0 16)
          |>.set 1 (resSlice (fun i => i) 16 16)⟩, []) := by
  constructor
  · have h := (C10_block_read_assert_branch (fun _ _ => none) (fun i => i)
      ⟨100, 4, 16, List.replicate 7 []⟩ 8 (by decide) (by decide) (by decide)).1
      (by intro hall; exact hall 0 (by decide) (by decide) rfl) |>.1 rfl
    simpa using h
  · have h := (C10_block_read_assert_branch (fun _ _ => none) (fun i => i)
      ⟨100, 4, 16, (List.replicate 7 []).set 0 (resSlice (fun i => i) 0 16)
        |>.set 1 (resSlice (fun i => i) 16 16)⟩ 8 (by decide) (by decide)
      (by decide)).2
      (by
        intro b h1 h2
        dsimp only at h1 h2 ⊢
        have hb : b = 0 ∨ b = 1 := by omega
        rcases hb with rfl | rfl <;> decide)
      (by
        intro b
        dsimp only
        match b with
        | 0 => right; rfl
        | 1 => right; rfl
        | n + 2 => left; rcases n with _ | _ | _ | _ | _ | n <;> rfl)
    simpa using h

end TiledViewer
